import Mathlib

/-!
# Verification of the djbdns-fork cache engine (`src/cache.c`)

A shallow embedding of the cache: a single byte arena addressed by `Nat`,
four cursors, XOR-linked hash bucket chains, `cache_t_get` / `cache_t_set` /
`init` translated statement by statement from `src/cache.c`.

The byte-packing primitives (`uint32_pack`/`uint32_unpack`, `tai_pack`/
`tai_unpack`, `byte_copy`/`byte_equal`/`byte_zero`) and the time source are
external collaborators of the repository whose sources are not under `src/`;
they are modelled from the spec (little-endian fixed-width integers, opaque
8-byte lossless time packing, plain byte-string operations).
-/

set_option maxHeartbeats 1000000

namespace DjbCache

/-- The arena: an unbounded byte store. Positions the C program never writes
keep their previous value; every stored value is a byte (reduced mod 256). -/
abbrev Arena := Nat → Nat

/-- Write one byte (C: `c->x[i] = v`). -/
def wr (a : Arena) (i v : Nat) : Arena := fun j => if j = i then v % 256 else a j

/-- Read one byte (C: `(unsigned char) c->x[i]`). -/
def rd (a : Arena) (i : Nat) : Nat := a i % 256

theorem rd_lt (a : Arena) (i : Nat) : rd a i < 256 := Nat.mod_lt _ (by norm_num)

theorem rd_wr_self (a : Arena) (i v : Nat) : rd (wr a i v) i = v % 256 := by
  simp [rd, wr]

theorem rd_wr_ne (a : Arena) (i v j : Nat) (h : j ≠ i) : rd (wr a i v) j = rd a j := by
  simp [rd, wr, h]

/-- Two arenas agree on the half-open window `[lo, hi)`. -/
def agreeOn (a b : Arena) (lo hi : Nat) : Prop :=
  ∀ j, lo ≤ j → j < hi → a j = b j

theorem agreeOn_refl (a : Arena) (lo hi : Nat) : agreeOn a a lo hi := fun _ _ _ => rfl

theorem agreeOn_trans {a b c : Arena} {lo hi : Nat}
    (h1 : agreeOn a b lo hi) (h2 : agreeOn b c lo hi) : agreeOn a c lo hi :=
  fun j hj hj' => (h1 j hj hj').trans (h2 j hj hj')

theorem agreeOn_mono {a b : Arena} {lo hi lo' hi' : Nat}
    (h : agreeOn a b lo hi) (hlo : lo ≤ lo') (hhi : hi' ≤ hi) : agreeOn a b lo' hi' :=
  fun j hj hj' => h j (le_trans hlo hj) (lt_of_lt_of_le hj' hhi)

theorem agreeOn_rd {a b : Arena} {lo hi : Nat} (h : agreeOn a b lo hi)
    (j : Nat) (h1 : lo ≤ j) (h2 : j < hi) : rd a j = rd b j := by
  simp only [rd, h j h1 h2]

/-- A `wr` outside the window leaves the window unchanged. -/
theorem agreeOn_wr (a : Arena) (i v lo hi : Nat) (h : i < lo ∨ hi ≤ i) :
    agreeOn (wr a i v) a lo hi := by
  intro j hj hj'
  simp only [wr]
  have : j ≠ i := by omega
  simp [this]

/-- Read a 4-byte little-endian integer (C: `uint32_unpack`, modelled from the
spec: all integers are little-endian fixed-width). -/
def get4 (a : Arena) (i : Nat) : Nat :=
  rd a i + 256 * rd a (i + 1) + 65536 * rd a (i + 2) + 16777216 * rd a (i + 3)

/-- Write a 4-byte little-endian integer (C: `uint32_pack`, modelled from the
spec). -/
def put4 (a : Arena) (i u : Nat) : Arena :=
  wr (wr (wr (wr a i u) (i + 1) (u / 256)) (i + 2) (u / 65536)) (i + 3) (u / 16777216)

theorem get4_lt (a : Arena) (i : Nat) : get4 a i < 4294967296 := by
  have h0 := rd_lt a i
  have h1 := rd_lt a (i + 1)
  have h2 := rd_lt a (i + 2)
  have h3 := rd_lt a (i + 3)
  unfold get4
  omega

theorem get4_congr {a b : Arena} {i : Nat} (h : agreeOn a b i (i + 4)) :
    get4 a i = get4 b i := by
  unfold get4
  rw [agreeOn_rd h i (by omega) (by omega), agreeOn_rd h (i+1) (by omega) (by omega),
      agreeOn_rd h (i+2) (by omega) (by omega), agreeOn_rd h (i+3) (by omega) (by omega)]

theorem agreeOn_put4 (a : Arena) (i u lo hi : Nat) (h : i + 4 ≤ lo ∨ hi ≤ i) :
    agreeOn (put4 a i u) a lo hi := by
  unfold put4
  refine agreeOn_trans (agreeOn_wr _ (i+3) _ lo hi (by omega)) ?_
  refine agreeOn_trans (agreeOn_wr _ (i+2) _ lo hi (by omega)) ?_
  refine agreeOn_trans (agreeOn_wr _ (i+1) _ lo hi (by omega)) ?_
  exact agreeOn_wr _ i _ lo hi (by omega)

theorem get4_put4_self (a : Arena) (i u : Nat) :
    get4 (put4 a i u) i = u % 4294967296 := by
  unfold get4 put4
  rw [show rd (wr (wr (wr (wr a i u) (i+1) (u/256)) (i+2) (u/65536)) (i+3) (u/16777216)) (i+3)
        = (u / 16777216) % 256 from rd_wr_self _ _ _]
  rw [rd_wr_ne _ _ _ (i+2) (by omega), rd_wr_self]
  rw [rd_wr_ne _ _ _ (i+1) (by omega), rd_wr_ne _ _ _ (i+1) (by omega), rd_wr_self]
  rw [rd_wr_ne _ _ _ i (by omega), rd_wr_ne _ _ _ i (by omega),
      rd_wr_ne _ _ _ i (by omega), rd_wr_self]
  omega

theorem get4_put4_of_lt (a : Arena) (i u : Nat) (h : u < 4294967296) :
    get4 (put4 a i u) i = u := by
  rw [get4_put4_self, Nat.mod_eq_of_lt h]

/-- Read an 8-byte packed time value, most significant byte first
(C: `tai_unpack`; modelled from the spec: 8 bytes per instant, lossless
round trip through pack/unpack). -/
def get8 (a : Arena) (i : Nat) : Nat :=
  rd a (i + 7) + 256 * rd a (i + 6) + 256 ^ 2 * rd a (i + 5) + 256 ^ 3 * rd a (i + 4) +
    256 ^ 4 * rd a (i + 3) + 256 ^ 5 * rd a (i + 2) + 256 ^ 6 * rd a (i + 1) +
    256 ^ 7 * rd a i

/-- Write an 8-byte packed time value (C: `tai_pack`; modelled from the spec). -/
def put8 (a : Arena) (i u : Nat) : Arena :=
  wr (wr (wr (wr (wr (wr (wr (wr a i (u / 256 ^ 7)) (i + 1) (u / 256 ^ 6))
    (i + 2) (u / 256 ^ 5)) (i + 3) (u / 256 ^ 4)) (i + 4) (u / 256 ^ 3))
    (i + 5) (u / 256 ^ 2)) (i + 6) (u / 256)) (i + 7) u

theorem get8_congr {a b : Arena} {i : Nat} (h : agreeOn a b i (i + 8)) :
    get8 a i = get8 b i := by
  unfold get8
  rw [agreeOn_rd h i (by omega) (by omega), agreeOn_rd h (i+1) (by omega) (by omega),
      agreeOn_rd h (i+2) (by omega) (by omega), agreeOn_rd h (i+3) (by omega) (by omega),
      agreeOn_rd h (i+4) (by omega) (by omega), agreeOn_rd h (i+5) (by omega) (by omega),
      agreeOn_rd h (i+6) (by omega) (by omega), agreeOn_rd h (i+7) (by omega) (by omega)]

theorem agreeOn_put8 (a : Arena) (i u lo hi : Nat) (h : i + 8 ≤ lo ∨ hi ≤ i) :
    agreeOn (put8 a i u) a lo hi := by
  unfold put8
  refine agreeOn_trans (agreeOn_wr _ (i+7) _ lo hi (by omega)) ?_
  refine agreeOn_trans (agreeOn_wr _ (i+6) _ lo hi (by omega)) ?_
  refine agreeOn_trans (agreeOn_wr _ (i+5) _ lo hi (by omega)) ?_
  refine agreeOn_trans (agreeOn_wr _ (i+4) _ lo hi (by omega)) ?_
  refine agreeOn_trans (agreeOn_wr _ (i+3) _ lo hi (by omega)) ?_
  refine agreeOn_trans (agreeOn_wr _ (i+2) _ lo hi (by omega)) ?_
  refine agreeOn_trans (agreeOn_wr _ (i+1) _ lo hi (by omega)) ?_
  exact agreeOn_wr _ i _ lo hi (by omega)

theorem get8_put8_self (a : Arena) (i u : Nat) :
    get8 (put8 a i u) i = u % 2 ^ 64 := by
  unfold get8 put8
  rw [show (2:Nat) ^ 64 = 256 ^ 8 by norm_num]
  rw [rd_wr_self]
  rw [rd_wr_ne _ _ _ (i+6) (by omega), rd_wr_self]
  rw [rd_wr_ne _ _ _ (i+5) (by omega), rd_wr_ne _ _ _ (i+5) (by omega), rd_wr_self]
  rw [rd_wr_ne _ _ _ (i+4) (by omega), rd_wr_ne _ _ _ (i+4) (by omega),
      rd_wr_ne _ _ _ (i+4) (by omega), rd_wr_self]
  rw [rd_wr_ne _ _ _ (i+3) (by omega), rd_wr_ne _ _ _ (i+3) (by omega),
      rd_wr_ne _ _ _ (i+3) (by omega), rd_wr_ne _ _ _ (i+3) (by omega), rd_wr_self]
  rw [rd_wr_ne _ _ _ (i+2) (by omega), rd_wr_ne _ _ _ (i+2) (by omega),
      rd_wr_ne _ _ _ (i+2) (by omega), rd_wr_ne _ _ _ (i+2) (by omega),
      rd_wr_ne _ _ _ (i+2) (by omega), rd_wr_self]
  rw [rd_wr_ne _ _ _ (i+1) (by omega), rd_wr_ne _ _ _ (i+1) (by omega),
      rd_wr_ne _ _ _ (i+1) (by omega), rd_wr_ne _ _ _ (i+1) (by omega),
      rd_wr_ne _ _ _ (i+1) (by omega), rd_wr_ne _ _ _ (i+1) (by omega), rd_wr_self]
  rw [rd_wr_ne _ _ _ i (by omega), rd_wr_ne _ _ _ i (by omega),
      rd_wr_ne _ _ _ i (by omega), rd_wr_ne _ _ _ i (by omega),
      rd_wr_ne _ _ _ i (by omega), rd_wr_ne _ _ _ i (by omega),
      rd_wr_ne _ _ _ i (by omega), rd_wr_self]
  have h1 : (256:Nat) ^ 8 = 18446744073709551616 := by norm_num
  have h2 : (256:Nat) ^ 2 = 65536 := by norm_num
  have h3 : (256:Nat) ^ 3 = 16777216 := by norm_num
  have h4 : (256:Nat) ^ 4 = 4294967296 := by norm_num
  have h5 : (256:Nat) ^ 5 = 1099511627776 := by norm_num
  have h6 : (256:Nat) ^ 6 = 281474976710656 := by norm_num
  have h7 : (256:Nat) ^ 7 = 72057594037927936 := by norm_num
  rw [h1, h2, h3, h4, h5, h6, h7]
  omega

theorem get8_put8_of_lt (a : Arena) (i u : Nat) (h : u < 2 ^ 64) :
    get8 (put8 a i u) i = u := by
  rw [get8_put8_self, Nat.mod_eq_of_lt h]

theorem get8_lt (a : Arena) (i : Nat) : get8 a i < 2 ^ 64 := by
  have h0 := rd_lt a i
  have h1 := rd_lt a (i + 1)
  have h2 := rd_lt a (i + 2)
  have h3 := rd_lt a (i + 3)
  have h4 := rd_lt a (i + 4)
  have h5 := rd_lt a (i + 5)
  have h6 := rd_lt a (i + 6)
  have h7 := rd_lt a (i + 7)
  unfold get8
  have h1' : (2:Nat) ^ 64 = 256 ^ 8 := by norm_num
  have e2 : (256:Nat) ^ 2 = 65536 := by norm_num
  have e3 : (256:Nat) ^ 3 = 16777216 := by norm_num
  have e4 : (256:Nat) ^ 4 = 4294967296 := by norm_num
  have e5 : (256:Nat) ^ 5 = 1099511627776 := by norm_num
  have e6 : (256:Nat) ^ 6 = 281474976710656 := by norm_num
  have e7 : (256:Nat) ^ 7 = 72057594037927936 := by norm_num
  have e8 : (256:Nat) ^ 8 = 18446744073709551616 := by norm_num
  rw [h1', e2, e3, e4, e5, e6, e7, e8]
  omega

/-- Read `n` consecutive arena bytes as a list (the borrow `get` returns,
and the byte string `byte_equal` compares against). -/
def readBytes (a : Arena) (i : Nat) : Nat → List Nat
  | 0 => []
  | n + 1 => rd a i :: readBytes a (i + 1) n

/-- Write a byte string into the arena (C: `byte_copy(dst, n, src)`,
modelled from the spec). -/
def writeBytes (a : Arena) (i : Nat) : List Nat → Arena
  | [] => a
  | b :: l => writeBytes (wr a i b) (i + 1) l

theorem readBytes_length (a : Arena) (i n : Nat) : (readBytes a i n).length = n := by
  induction n generalizing i with
  | zero => rfl
  | succ n ih => simp [readBytes, ih]

theorem readBytes_congr {a b : Arena} {i : Nat} (n : Nat) (h : agreeOn a b i (i + n)) :
    readBytes a i n = readBytes b i n := by
  induction n generalizing i with
  | zero => rfl
  | succ n ih =>
    simp only [readBytes]
    rw [agreeOn_rd h i (by omega) (by omega), ih (agreeOn_mono h (by omega) (by omega))]

theorem agreeOn_writeBytes (a : Arena) (l : List Nat) (i lo hi : Nat)
    (h : i + l.length ≤ lo ∨ hi ≤ i) : agreeOn (writeBytes a i l) a lo hi := by
  induction l generalizing a i with
  | nil => exact agreeOn_refl _ _ _
  | cons b l ih =>
    simp only [writeBytes]
    refine agreeOn_trans (ih _ (i+1) ?_) (agreeOn_wr _ i _ lo hi ?_)
    · simp only [List.length_cons] at h; omega
    · simp only [List.length_cons] at h; omega

theorem readBytes_writeBytes_self (a : Arena) (l : List Nat) (i : Nat) :
    readBytes (writeBytes a i l) i l.length = l.map (· % 256) := by
  induction l generalizing a i with
  | nil => rfl
  | cons b l ih =>
    simp only [writeBytes, List.length_cons, readBytes, List.map_cons]
    rw [agreeOn_rd (agreeOn_writeBytes _ l (i+1) i (i+1) (by omega)) i (by omega) (by omega),
      rd_wr_self, ih]

/-! ## The cache state (`struct cache`, `cache.c` lines 12–26)

`last_ratio` is a C `double`; only the values `0.0` (the "no prior cycle"
sentinel, `cache.c` line 170) and the ratio stored at a cycle boundary are ever
written, so it is modelled as a rational.  The floating-point ratio computed by
`should_resize` and the verdict of the user-supplied `resize_callback` reach the
engine only as a boundary decision; they are supplied by the `BStep` oracle. -/

structure TtlStats where
  count : Nat
  total : Nat
  min : Nat
  max : Nat
deriving DecidableEq, Repr

structure COptions where
  allow_resize : Bool
  target_cycle_time : Nat
deriving DecidableEq, Repr

/-- Defaults installed by `init` when no options are supplied
(`cache.c` lines 135–138). -/
def default_options : COptions := ⟨true, 86400⟩

structure Cache where
  x : Arena
  /-- Length of the buffer handed back by `alloc` (`cache.c` line 108):
  the requested size, before clamping. -/
  alen : Nat
  size : Nat
  hsize : Nat
  writer : Nat
  oldest : Nat
  unused : Nat
  cache_motion : Nat
  /-- `cycle.start` -/
  start : Nat
  /-- `cycle.last_ratio` -/
  last_ratio : ℚ
  /-- `cycle.ttl` -/
  ttl : TtlStats
  options : COptions

/-! ## Hash function (`cache.c` lines 88–101) -/

/-- The DJB rolling hash over `hsize`: `h ← 5381`, then
`h ← ((h<<5)+h) ^ byte` in 32-bit arithmetic, finally `h <<= 2` and
`h &= hsize - 4`. -/
def hashB (hsize : Nat) (key : List Nat) : Nat :=
  ((key.foldl (fun r b => ((r * 32 + r) % 4294967296) ^^^ (b % 256)) 5381 * 4)
    % 4294967296) &&& (hsize - 4)

def hash (c : Cache) (key : List Nat) : Nat := hashB c.hsize key

/-! ## Initialization (`init`, `cache.c` lines 103–141) -/

/-- The `while (c->hsize <= (c->size >> 5)) c->hsize <<= 1;` loop.  64 doubling
steps are far more than the loop can take for any 32-bit size. -/
def hsizeLoop (s : Nat) : Nat → Nat → Nat
  | 0, h => h
  | f + 1, h => if h ≤ s / 32 then hsizeLoop s f (h * 2) else h

def hsizeFor (s : Nat) : Nat := hsizeLoop s 64 4

/-- The success branch of `init`: the requested byte count is allocated
(`alen`), and only afterwards is the size field clamped into
`[MINCACHESIZE, MAXCACHESIZE]` (`cache.c` lines 108, 116–118).  The cycle TTL
statistics are not touched. -/
def initOk (c : Cache) (cachesize : Nat) (options : Option COptions) (now : Nat) : Cache :=
  let clamped := if cachesize > 1000000000 then 1000000000
                 else if cachesize < 100 then 100 else cachesize
  { x := fun _ => 0
    alen := cachesize
    size := clamped
    hsize := hsizeFor clamped
    writer := hsizeFor clamped
    oldest := clamped
    unused := clamped
    cache_motion := c.cache_motion
    start := now
    last_ratio := 0
    ttl := c.ttl
    options := match options with
               | some o => o
               | none => default_options }

/-- `init`: allocation happens first; on failure nothing is modified and 0 is
returned (`cache.c` lines 107–109). -/
def init (c : Cache) (cachesize : Nat) (options : Option COptions) (now : Nat)
    (allocOk : Bool) : Option Cache :=
  if allocOk then some (initOk c cachesize options now) else none

/-- The `byte_zero`d `struct cache` that `cache_t_new` starts from
(`cache.c` lines 352–353). -/
def zeroCache : Cache :=
  { x := fun _ => 0, alen := 0, size := 0, hsize := 0, writer := 0, oldest := 0,
    unused := 0, cache_motion := 0, start := 0, last_ratio := 0,
    ttl := ⟨0, 0, 0, 0⟩, options := ⟨false, 0⟩ }

/-- `cache_t_new` (`cache.c` lines 350–360). -/
def cache_t_new (cachesize : Nat) (options : Option COptions) (now : Nat)
    (allocOk : Bool) : Option Cache :=
  init zeroCache cachesize options now allocOk

/-- `cache_t_init` (`cache.c` lines 373–376): re-initialize in place, reporting
success; on failure the cache is left as it was. -/
def cache_t_init (c : Cache) (cachesize : Nat) (options : Option COptions) (now : Nat)
    (allocOk : Bool) : Cache × Bool :=
  match init c cachesize options now allocOk with
  | some c1 => (c1, true)
  | none => (c, false)

/-! ## Cycle statistics (`cache.c` lines 143–154) -/

def cycle_stats_add_ttl (c : Cache) (ttl : Nat) : Cache :=
  { c with ttl :=
      { count := c.ttl.count + 1
        total := c.ttl.total + ttl
        max := if c.ttl.max = 0 ∨ ttl > c.ttl.max then ttl else c.ttl.max
        min := if c.ttl.min = 0 ∨ ttl < c.ttl.min then ttl else c.ttl.min } }

/-! ## Bounds-checked arena access (`set4`/`get4`, `cache.c` lines 74–86)

`none` is `cache_impossible()`: the process exits with code 111. -/

def get4c (c : Cache) (pos : Nat) : Option Nat :=
  if pos > c.size - 4 then none else some (get4 c.x pos)

def set4c (c : Cache) (pos u : Nat) : Option Cache :=
  if pos > c.size - 4 then none else some { c with x := put4 c.x pos u }

/-! ## The adaptive sizer (`should_resize` / `check_for_resize`,
`cache.c` lines 156–218)

`should_resize` works in `double` arithmetic on wall-clock durations, and a
user-supplied `resize_callback` may override its verdict verbatim
(`cache.c` lines 201–203).  Both are outside the engine; a cycle-boundary
oracle supplies the ratio that line 205 stores, the final resize verdict, the
candidate `newsize`, and whether the `alloc` inside the nested `init` succeeds.
The `newsize` clamps of lines 163–164 are applied by the model itself. -/

structure BStep where
  ratio : ℚ
  resize : Bool
  newsize : Nat
  allocOk : Bool

/-- `check_for_resize`: returns the updated cache and whether a resize
happened.  On the resize path `last_ratio` is cleared before `init` runs, and
a failing `init` is ignored (`cache.c` lines 207–211). -/
def check_for_resize (c : Cache) (now : Nat) (dec : Option BStep) : Cache × Bool :=
  if c.options.allow_resize then
    match dec with
    | some d =>
      if d.resize then
        let c1 := { c with last_ratio := 0 }
        let ns := if d.newsize > 1000000000 then 1000000000
                  else if d.newsize < 100 then 100 else d.newsize
        match init c1 ns (some c1.options) now d.allocOk with
        | some c2 => (c2, true)
        | none => (c1, true)
      else ({ c with last_ratio := d.ratio, start := now }, false)
    | none => ({ c with start := now }, false)
  else ({ c with start := now }, false)

/-! ## Insertion (`cache_t_set`, `cache.c` lines 278–344) -/

/-- One eviction step (`cache.c` lines 309–317): unlink the entry at `oldest`
by XOR-patching its predecessor's link, then advance `oldest` past it (32-bit
arithmetic).  `none` is `cache_impossible()`. -/
def evictOne (c : Cache) : Option Cache := do
  let pos ← get4c c c.oldest
  let lv ← get4c c pos
  let c ← set4c c pos (lv ^^^ c.oldest)
  let kl ← get4c c (c.oldest + 4)
  let dl ← get4c c (c.oldest + 8)
  let old1 := (c.oldest + kl + dl + 20) % 4294967296
  if old1 > c.unused then none
  else if old1 = c.unused then some { c with oldest := c.size, unused := c.size }
  else some { c with oldest := old1 }

inductive RoomRes where
  | abort
  | fuelOut
  | resized (c : Cache) (orc : List (Option BStep))
  | gaveUp (c : Cache)
  | ready (c : Cache)

/-- The making-room loop (`while (c->writer + entrylen > c->oldest)`,
`cache.c` lines 297–318).  Each pass through the cycle-boundary branch consumes
one oracle decision. -/
def roomLoop (entrylen now : Nat) : Nat → Cache → List (Option BStep) → RoomRes
  | 0, _, _ => .fuelOut
  | fuel + 1, c, orc =>
    if c.writer + entrylen > c.oldest then
      if c.oldest = c.unused then
        if c.writer ≤ c.hsize then .gaveUp c
        else
          match check_for_resize c now (orc.headD none) with
          | (c1, true) => .resized c1 orc.tail
          | (c1, false) =>
            roomLoop entrylen now fuel
              { c1 with unused := c1.writer, oldest := c1.hsize, writer := c1.hsize }
              orc.tail
      else
        match evictOne c with
        | none => .abort
        | some c1 => roomLoop entrylen now fuel c1 orc
    else .ready c

/-- The append phase (`cache.c` lines 320–343), run once room has been made:
link the new entry in at the chain head and write its fields at `writer`. -/
def appendEntry (c : Cache) (key data : List Nat) (ttl now : Nat) : Option Cache := do
  let keyhash := hash c key
  let expire := (now + ttl) % 2 ^ 64
  let pos ← get4c c keyhash
  let c ← if pos ≠ 0 then do
            let lv ← get4c c pos
            set4c c pos (lv ^^^ keyhash ^^^ c.writer)
          else pure c
  let c ← set4c c c.writer (pos ^^^ keyhash)
  let c ← set4c c (c.writer + 4) key.length
  let c ← set4c c (c.writer + 8) data.length
  let c := { c with x := put8 c.x (c.writer + 12) expire }
  let c := { c with x := writeBytes c.x (c.writer + 20) key }
  let c := { c with x := writeBytes c.x (c.writer + 20 + key.length) data }
  let c := cycle_stats_add_ttl c ttl
  let c ← set4c c keyhash c.writer
  let entrylen := key.length + data.length + 20
  some { c with writer := c.writer + entrylen
                cache_motion := (c.cache_motion + entrylen) % 2 ^ 64 }

inductive SetRes where
  | abort
  | stuck
  | ok (c : Cache)

/-- `cache_t_set` with explicit recursion fuel for the resize-and-retry call
(`cache.c` line 301).  Each recursive call consumes at least one oracle
decision, so `orc.length + 1` levels always suffice (`.stuck` is unreachable
from `cache_t_set`). -/
def setAux (key data : List Nat) (ttl now : Nat) :
    Nat → Cache → List (Option BStep) → SetRes
  | 0, _, _ => .stuck
  | fuel + 1, c, orc =>
    if key.length > 1000 then .ok c
    else if data.length > 1000000 then .ok c
    else
      let ttl1 := if ttl > 604800 then 604800 else ttl
      let entrylen := key.length + data.length + 20
      match roomLoop entrylen now (3 * c.size + 3) c orc with
      | .abort => .abort
      | .fuelOut => .stuck
      | .gaveUp c1 => .ok c1
      | .resized c1 orc1 => setAux key data ttl1 now fuel c1 orc1
      | .ready c1 =>
        match appendEntry c1 key data ttl1 now with
        | none => .abort
        | some c2 => .ok c2

def cache_t_set (c : Cache) (key data : List Nat) (ttl now : Nat)
    (orc : List (Option BStep)) : SetRes :=
  setAux key data ttl now (orc.length + 1) c orc

/-! ## Lookup (`cache_t_get`, `cache.c` lines 225–273)

The returned `Nat` counts the entries the chain walk inspected; it is the
source's `loop` counter sampled at the return point (after `++loop` the source
variable equals the number of completed iterations). -/

inductive GetRes where
  | abort
  | miss
  | hit (data : List Nat) (ttl : Nat)
deriving DecidableEq, Repr

def getLoop (c : Cache) (key : List Nat) (now : Nat) :
    Nat → Nat → Nat → Nat → GetRes × Nat
  | 0, _, _, n => (.abort, n)
  | fuel + 1, prevpos, pos, n =>
    if pos = 0 then (.miss, n)
    else
      let n := n + 1
      match get4c c (pos + 4) with
      | none => (.abort, n)
      | some kl =>
        if kl = key.length then
          if pos + 20 + key.length > c.size then (.abort, n)
          else if readBytes c.x (pos + 20) key.length = key.map (· % 256) then
            let expire := get8 c.x (pos + 12)
            if expire < now then (.miss, n)
            else
              let d := if expire - now > 604800 then 604800 else expire - now
              match get4c c (pos + 8) with
              | none => (.abort, n)
              | some u =>
                if u > c.size - pos - 20 - key.length then (.abort, n)
                else (.hit (readBytes c.x (pos + 20 + key.length) u) d, n)
          else
            match get4c c pos with
            | none => (.abort, n)
            | some lv =>
              if n > 100 then (.miss, n)
              else getLoop c key now fuel pos (prevpos ^^^ lv) n
        else
          match get4c c pos with
          | none => (.abort, n)
          | some lv =>
            if n > 100 then (.miss, n)
            else getLoop c key now fuel pos (prevpos ^^^ lv) n

/-- `cache_t_get` together with the number of chain entries inspected.  The
`stamp` parameter is the documented current-time override; exactly as in the
source it is accepted and never read — expiry is decided against `tai_now`
(the `now` argument). -/
def cache_t_get_cnt (c : Cache) (key : List Nat) (now : Nat) (stamp : Option Nat) :
    GetRes × Nat :=
  if key.length > 1000 then (.miss, 0)
  else
    let prevpos := hash c key
    match get4c c prevpos with
    | none => (.abort, 0)
    | some pos => getLoop c key now 102 prevpos pos 0

def cache_t_get (c : Cache) (key : List Nat) (now : Nat) (stamp : Option Nat) : GetRes :=
  (cache_t_get_cnt c key now stamp).1

/-! ## Derived notions used by the verification -/

/-- The size clamp of `init` and of `check_for_resize`
(`cache.c` lines 116–117 and 163–164). -/
def clampSize (n : Nat) : Nat :=
  if n > 1000000000 then 1000000000 else if n < 100 then 100 else n

/-- Every resize decision the oracle may hand out leads to a cache large
enough to hold an entry of length `el`. -/
def OracleFits (el : Nat) (orc : List (Option BStep)) : Prop :=
  ∀ b : BStep, some b ∈ orc → el + hsizeFor (clampSize b.newsize) ≤ clampSize b.newsize

/-- The cache states reachable by the public API: a fresh
`cache_t_new` followed by any sequence of valid, completed `cache_t_set`
calls (lookups do not mutate the cache). -/
inductive Reach : Cache → Prop where
  | fresh : ∀ cachesize options now c,
      cache_t_new cachesize options now true = some c → Reach c
  | step : ∀ c key data ttl now orc c2, Reach c →
      key.length ≤ 1000 → data.length ≤ 1000000 →
      cache_t_set c key data ttl now orc = SetRes.ok c2 → Reach c2

/-- The cache a completed `cache_t_set` left behind, if it completed. -/
def okCache : SetRes → Option Cache
  | SetRes.ok c => some c
  | _ => none

/-- Observe a `cache_t_set` result with a lookup. -/
def getAfter (r : SetRes) (key : List Nat) (now : Nat) (stamp : Option Nat) : GetRes :=
  match r with
  | SetRes.ok c => cache_t_get c key now stamp
  | _ => GetRes.abort

/-- The largest power of two `2^k` with `k ≤ f` not exceeding `m`
(1 when none is). -/
def pow2Floor : Nat → Nat → Nat
  | _, 0 => 1
  | m, f + 1 => if 2 ^ (f + 1) ≤ m then 2 ^ (f + 1) else pow2Floor m f

/-- Modelled from the spec: the hash-slot count the spec describes — "the
largest power of two not exceeding `size/32`, with a floor of 4". -/
def specHsize (s : Nat) : Nat := max 4 (pow2Floor (s / 32) 64)

/-- Run a `cache_t_set` on the cache produced so far, keeping the cache only
if the call completed. -/
def setThen (oc : Option Cache) (key data : List Nat) (ttl now : Nat)
    (orc : List (Option BStep)) : Option Cache :=
  oc.bind (fun c => okCache (cache_t_set c key data ttl now orc))

/-! ## Characterization of the `hsize` loop -/

theorem hsizeLoop_spec (s : Nat) : ∀ f h, 4 ≤ h → (∃ k, h = 2 ^ k) →
    s / 32 < h * 2 ^ f →
    4 ≤ hsizeLoop s f h ∧ (∃ k, hsizeLoop s f h = 2 ^ k) ∧
    s / 32 < hsizeLoop s f h ∧ h ≤ hsizeLoop s f h ∧
    (s / 32 < h → hsizeLoop s f h = h) ∧
    (hsizeLoop s f h = h ∨ hsizeLoop s f h ≤ 2 * (s / 32)) ∧
    (∀ m, h ≤ m → (∃ j, m = 2 ^ j) → s / 32 < m → hsizeLoop s f h ≤ m) := by
  intro f
  induction f with
  | zero =>
    intro h h4 hpow hfuel
    simp only [pow_zero, mul_one] at hfuel
    have hneg : ¬ h ≤ s / 32 := by omega
    have hr : hsizeLoop s 0 h = h := rfl
    rw [hr]
    exact ⟨h4, hpow, hfuel, le_refl _, fun _ => rfl, Or.inl rfl, fun m hm _ _ => hm⟩
  | succ f ih =>
    intro h h4 hpow hfuel
    by_cases hle : h ≤ s / 32
    · have hr : hsizeLoop s (f + 1) h = hsizeLoop s f (h * 2) := by
        simp only [hsizeLoop, if_pos hle]
      rw [hr]
      obtain ⟨k, hk⟩ := hpow
      have hfuel2 : s / 32 < h * 2 * 2 ^ f := by
        have he : h * 2 ^ (f + 1) = h * 2 * 2 ^ f := by rw [pow_succ]; ring
        omega
      have hrec := ih (h * 2) (by omega) ⟨k + 1, by rw [hk]; ring⟩ hfuel2
      obtain ⟨r4, rpow, rgt, rge, _, rtwo, rmin⟩ := hrec
      refine ⟨r4, rpow, rgt, by omega, fun hlt => by omega, ?_, ?_⟩
      · rcases rtwo with h1 | h1
        · exact Or.inr (by omega)
        · exact Or.inr h1
      · intro m hm mpow mgt
        obtain ⟨j, hj⟩ := mpow
        have hm2 : h * 2 ≤ m := by
          -- m and h are powers of two with h ≤ s/32 < m, hence h < m, hence 2*h ≤ m
          have hlt' : h < m := by omega
          have hkj : k < j := by
            by_contra hc
            push_neg at hc
            have := Nat.pow_le_pow_right (show 0 < 2 by norm_num) hc
            omega
          have : 2 ^ k * 2 ≤ 2 ^ j := by
            calc 2 ^ k * 2 = 2 ^ (k + 1) := by ring
              _ ≤ 2 ^ j := Nat.pow_le_pow_right (by norm_num) (by omega)
          omega
        exact rmin m hm2 ⟨j, hj⟩ mgt
    · have hr : hsizeLoop s (f + 1) h = h := by
        simp only [hsizeLoop, if_neg hle]
      rw [hr]
      exact ⟨h4, hpow, by omega, le_refl _, fun _ => rfl, Or.inl rfl, fun m hm _ _ => hm⟩

theorem hsizeFor_spec (s : Nat) (hs : s ≤ 1000000000) :
    4 ≤ hsizeFor s ∧ (∃ k, hsizeFor s = 2 ^ k) ∧ s / 32 < hsizeFor s ∧
    (hsizeFor s = 4 ∨ hsizeFor s ≤ 2 * (s / 32)) ∧
    (∀ m, 4 ≤ m → (∃ j, m = 2 ^ j) → s / 32 < m → hsizeFor s ≤ m) := by
  have hfuel : s / 32 < 4 * 2 ^ 64 := by
    have : s / 32 ≤ 1000000000 := by omega
    calc s / 32 ≤ 1000000000 := this
      _ < 4 * 2 ^ 64 := by norm_num
  obtain ⟨h4, hpow, hgt, _, _, htwo, hmin⟩ :=
    hsizeLoop_spec s 64 4 (by norm_num) ⟨2, by norm_num⟩ hfuel
  exact ⟨h4, hpow, hgt, htwo, hmin⟩

theorem hsizeFor_le_div16 (s : Nat) (h64 : 64 ≤ s) (hs : s ≤ 1000000000) :
    hsizeFor s ≤ s / 16 := by
  obtain ⟨h4, _, _, htwo, _⟩ := hsizeFor_spec s hs
  rcases htwo with h1 | h1 <;> omega

theorem hsizeFor_le_size (s : Nat) (h64 : 64 ≤ s) (hs : s ≤ 1000000000) :
    hsizeFor s ≤ s :=
  le_trans (hsizeFor_le_div16 s h64 hs) (by omega)

/-! ## The abstraction: entries, region tilings, age-ordered XOR chains -/

/-- An abstract live entry: its arena offset and decoded fields. -/
structure Ent where
  pos : Nat
  key : List Nat
  data : List Nat
  exp : Nat

/-- `4-byte link | keylen | datalen | expire(8) | key | data`
(`cache.c` line 53). -/
def elen (e : Ent) : Nat := 20 + e.key.length + e.data.length

/-- The bytes at `e.pos` encode entry `e` (link field excluded — links belong
to the chain layer). -/
def entRep (a : Arena) (e : Ent) : Prop :=
  get4 a (e.pos + 4) = e.key.length ∧
  get4 a (e.pos + 8) = e.data.length ∧
  get8 a (e.pos + 12) = e.exp ∧
  readBytes a (e.pos + 20) e.key.length = e.key ∧
  readBytes a (e.pos + 20 + e.key.length) e.data.length = e.data ∧
  e.key.length ≤ 1000 ∧ e.data.length ≤ 1000000

/-- The entries `l` tile the window `[i, j)` consecutively, left to right. -/
def tiles : List Ent → Nat → Nat → Prop
  | [], i, j => i = j
  | e :: r, i, j => e.pos = i ∧ tiles r (i + elen e) j

/-- The XOR-linked bucket chain, walked in age order (oldest first).  `n` is
the offset of the previously visited (next-older) node, `0` before the oldest.
Each node's link is `older XOR newer`, where the head slot `b` acts as the
neighbor beyond the newest node, and the head slot holds the newest node's
offset (`cache.c` lines 45–50). -/
def chainAge (a : Arena) (b : Nat) : Nat → List Nat → Prop
  | n, [] => get4 a b = n
  | n, q :: rest => get4 a q = n ^^^ rest.headD b ∧ chainAge a b q rest

/-- Offsets, oldest first, of the live entries hashing to bucket `b`. -/
def agePositions (hsize : Nat) (live : List Ent) (b : Nat) : List Nat :=
  (live.filter (fun e => hashB hsize e.key = b)).map Ent.pos

/-- The full well-formedness context: the documented cursor invariant
(`cache.c` lines 30–43) together with a decomposition of the arena into the
old-region entries `olds` (tiling `[oldest, unused)`) and the new-region
entries `news` (tiling `[hsize, writer)`), both oldest first, whose bucket
chains are well-formed XOR lists. -/
structure Ctx (c : Cache) (olds news : List Ent) : Prop where
  size_lb : 100 ≤ c.size
  size_ub : c.size ≤ 1000000000
  hsize4 : 4 ≤ c.hsize
  hsize16 : c.hsize ≤ c.size / 16
  hsize_pow : ∃ k, c.hsize = 2 ^ k
  wlo : c.hsize ≤ c.writer
  olo : c.writer ≤ c.oldest
  ulo : c.oldest ≤ c.unused
  slo : c.unused ≤ c.size
  full : c.oldest = c.unused → c.unused = c.size
  tO : tiles olds c.oldest c.unused
  tN : tiles news c.hsize c.writer
  ent : ∀ e ∈ olds ++ news, entRep c.x e
  ch : ∀ b, b < c.hsize → b % 4 = 0 → chainAge c.x b 0 (agePositions c.hsize (olds ++ news) b)

/-- Well-formedness of a cache state. -/
def WF (c : Cache) : Prop := ∃ olds news, Ctx c olds news

/-! ## Basic lemmas about the abstraction -/

theorem elen_pos (e : Ent) : 20 ≤ elen e := by unfold elen; omega

theorem tiles_le : ∀ (l : List Ent) (i j : Nat), tiles l i j → i ≤ j := by
  intro l
  induction l with
  | nil => intro i j h; exact le_of_eq h
  | cons e r ih =>
    intro i j h
    obtain ⟨_, ht⟩ := h
    have := ih _ _ ht
    have := elen_pos e
    omega

theorem tiles_nil_of_eq {l : List Ent} {i : Nat} (h : tiles l i i) : l = [] := by
  cases l with
  | nil => rfl
  | cons e r =>
    obtain ⟨_, ht⟩ := h
    have := tiles_le _ _ _ ht
    have := elen_pos e
    omega

theorem tiles_mem : ∀ (l : List Ent) (i j : Nat), tiles l i j →
    ∀ e ∈ l, i ≤ e.pos ∧ e.pos + elen e ≤ j := by
  intro l
  induction l with
  | nil => intro i j _ e he; exact absurd he (List.not_mem_nil e)
  | cons f r ih =>
    intro i j h e he
    obtain ⟨hf, ht⟩ := h
    rcases List.mem_cons.mp he with h1 | h1
    · subst h1
      have := tiles_le _ _ _ ht
      omega
    · have := ih _ _ ht e h1
      omega

theorem tiles_snoc {l : List Ent} {i j : Nat} (h : tiles l i j) (e : Ent)
    (he : e.pos = j) : tiles (l ++ [e]) i (j + elen e) := by
  induction l generalizing i with
  | nil =>
    have h' : i = j := h
    subst h'
    exact ⟨he, rfl⟩
  | cons f r ih =>
    obtain ⟨hf, ht⟩ := h
    exact ⟨hf, ih ht⟩

theorem entRep_congr {a b : Arena} {e : Ent}
    (hagree : agreeOn a b (e.pos + 4) (e.pos + elen e)) (h : entRep b e) : entRep a e := by
  obtain ⟨h1, h2, h3, h4, h5, h6, h7⟩ := h
  have he : elen e = 20 + e.key.length + e.data.length := rfl
  refine ⟨?_, ?_, ?_, ?_, ?_, h6, h7⟩
  · rw [get4_congr (agreeOn_mono hagree (by omega) (by omega)), h1]
  · rw [get4_congr (agreeOn_mono hagree (by omega) (by omega)), h2]
  · rw [get8_congr (agreeOn_mono hagree (by omega) (by omega)), h3]
  · rw [readBytes_congr e.key.length (agreeOn_mono hagree (by omega) (by omega)), h4]
  · rw [readBytes_congr e.data.length (agreeOn_mono hagree (by omega) (by omega)), h5]

theorem chainAge_head {a : Arena} {b : Nat} : ∀ {n : Nat} {l : List Nat},
    chainAge a b n l → get4 a b = l.getLastD n := by
  intro n l
  induction l generalizing n with
  | nil => intro h; exact h
  | cons q rest ih =>
    intro h
    rw [List.getLastD_cons]
    exact ih h.2

theorem chainAge_congr {a b : Arena} {s : Nat} : ∀ {n : Nat} {l : List Nat},
    (get4 a s = get4 b s) → (∀ q ∈ l, get4 a q = get4 b q) →
    chainAge b s n l → chainAge a s n l := by
  intro n l
  induction l generalizing n with
  | nil => intro hh _ h; exact hh.trans h
  | cons q rest ih =>
    intro hh hq h
    refine ⟨?_, ih hh (fun p hp => hq p (List.mem_cons_of_mem _ hp)) h.2⟩
    rw [hq q (List.mem_cons_self _ _), h.1]

theorem agePositions_mem {hsz : Nat} {live : List Ent} {b p : Nat}
    (h : p ∈ agePositions hsz live b) :
    ∃ e, e ∈ live ∧ e.pos = p ∧ hashB hsz e.key = b := by
  unfold agePositions at h
  obtain ⟨e, he, hp⟩ := List.mem_map.mp h
  have := List.mem_filter.mp he
  exact ⟨e, this.1, hp, by simpa using this.2⟩

theorem agePositions_cons {hsz : Nat} (e : Ent) (live : List Ent) (b : Nat) :
    agePositions hsz (e :: live) b =
      if hashB hsz e.key = b then e.pos :: agePositions hsz live b
      else agePositions hsz live b := by
  unfold agePositions
  by_cases hb : hashB hsz e.key = b
  · simp [List.filter_cons, hb]
  · simp [List.filter_cons, hb]

theorem agePositions_append (hsz : Nat) (l1 l2 : List Ent) (b : Nat) :
    agePositions hsz (l1 ++ l2) b = agePositions hsz l1 b ++ agePositions hsz l2 b := by
  unfold agePositions
  rw [List.filter_append, List.map_append]

/-! ## Bucket offsets are 4-aligned head slots -/

theorem hashB_le (k : Nat) (key : List Nat) : hashB k key ≤ k - 4 := by
  unfold hashB
  exact Nat.and_le_right

theorem and_mod4 (x m : Nat) (hm : m % 4 = 0) : (x &&& m) % 4 = 0 := by
  have h1 := Nat.and_pow_two_sub_one_eq_mod (x &&& m) 2
  have h2 := Nat.and_pow_two_sub_one_eq_mod m 2
  norm_num at h1 h2
  rw [← h1, Nat.land_assoc, show m &&& 3 = 0 by omega]
  simp

theorem hashB_mod4 (k : Nat) (key : List Nat) (hk : (k - 4) % 4 = 0) :
    hashB k key % 4 = 0 := by
  unfold hashB
  exact and_mod4 _ _ hk

theorem pow2_sub_four_mod4 (j : Nat) (hj : 2 ≤ j) : (2 ^ j - 4) % 4 = 0 := by
  have : (4:Nat) ∣ 2 ^ j := by
    have : 2 ^ j = 4 * 2 ^ (j - 2) := by
      rw [show (4:Nat) = 2 ^ 2 by norm_num, ← pow_add]
      congr 1
      omega
    exact ⟨2 ^ (j - 2), this⟩
  omega

theorem aligned_disjoint {b b' : Nat} (h : b % 4 = 0) (h' : b' % 4 = 0) (hne : b ≠ b') :
    b + 4 ≤ b' ∨ b' + 4 ≤ b := by omega

/-! ## Disjointness of live entry blocks -/

/-- The arena blocks of two entries do not overlap. -/
def Disj (e f : Ent) : Prop := e.pos + elen e ≤ f.pos ∨ f.pos + elen f ≤ e.pos

theorem disj_symm : Symmetric Disj := fun _ _ h => h.symm

theorem tiles_ordered_pairwise : ∀ (l : List Ent) (i j : Nat), tiles l i j →
    l.Pairwise (fun e f => e.pos + elen e ≤ f.pos) := by
  intro l
  induction l with
  | nil => intro i j _; exact List.Pairwise.nil
  | cons e r ih =>
    intro i j h
    obtain ⟨he, ht⟩ := h
    refine List.Pairwise.cons ?_ (ih _ _ ht)
    intro f hf
    have := tiles_mem _ _ _ ht f hf
    omega

theorem live_pairwise {c : Cache} {olds news : List Ent} (hc : Ctx c olds news) :
    (olds ++ news).Pairwise Disj := by
  rw [List.pairwise_append]
  refine ⟨(tiles_ordered_pairwise _ _ _ hc.tO).imp (fun h => Or.inl h),
    (tiles_ordered_pairwise _ _ _ hc.tN).imp (fun h => Or.inl h), ?_⟩
  intro e he f hf
  have h1 := tiles_mem _ _ _ hc.tO e he
  have h2 := tiles_mem _ _ _ hc.tN f hf
  have := hc.olo
  exact Or.inr (by omega)

theorem mem_same_pos {live : List Ent} (hpw : live.Pairwise Disj)
    {e f : Ent} (he : e ∈ live) (hf : f ∈ live) (hpos : e.pos = f.pos) : e = f := by
  by_contra hne
  have hd : Disj e f := hpw.forall disj_symm he hf hne
  have h1 := elen_pos e
  have h2 := elen_pos f
  unfold Disj at hd
  omega

/-! ## Derived facts about a context -/

namespace Ctx

variable {c : Cache} {olds news : List Ent}

theorem hsize_le_size (hc : Ctx c olds news) : c.hsize ≤ c.size := by
  have h1 := hc.hsize16
  have h2 := hc.size_lb
  omega

theorem hsize_mod4 (hc : Ctx c olds news) : (c.hsize - 4) % 4 = 0 := by
  obtain ⟨k, hk⟩ := hc.hsize_pow
  have h4 := hc.hsize4
  have hk2 : 2 ≤ k := by
    by_contra hlt
    push_neg at hlt
    interval_cases k <;> omega
  rw [hk]
  exact pow2_sub_four_mod4 k hk2

theorem hsize4mod (hc : Ctx c olds news) : c.hsize % 4 = 0 := by
  have h1 := hc.hsize_mod4
  have h2 := hc.hsize4
  omega

/-- Any bucket offset is a 4-aligned head-slot offset with room for 4 bytes. -/
theorem bucket_ok (hc : Ctx c olds news) (key : List Nat) :
    hashB c.hsize key + 4 ≤ c.hsize ∧ hashB c.hsize key % 4 = 0 := by
  have h1 := hashB_le c.hsize key
  have h2 := hashB_mod4 c.hsize key hc.hsize_mod4
  have h4 := hc.hsize4
  exact ⟨by omega, h2⟩

/-- Every live entry block lies in `[hsize, size)`, and avoids the free gap
`[writer, oldest)`. -/
theorem bounds (hc : Ctx c olds news) : ∀ f ∈ olds ++ news,
    c.hsize ≤ f.pos ∧ f.pos + elen f ≤ c.size ∧
    (f.pos + elen f ≤ c.writer ∨ c.oldest ≤ f.pos) := by
  intro f hf
  rcases List.mem_append.mp hf with h | h
  · have h1 := tiles_mem _ _ _ hc.tO f h
    have h2 := hc.wlo
    have h3 := hc.olo
    have h4 := hc.slo
    exact ⟨by omega, by omega, Or.inr (by omega)⟩
  · have h1 := tiles_mem _ _ _ hc.tN f h
    have h2 := hc.olo
    have h3 := hc.ulo
    have h4 := hc.slo
    exact ⟨by omega, by omega, Or.inl (by omega)⟩

/-- Positions of live entries determine entries. -/
theorem pos_inj (hc : Ctx c olds news) {e f : Ent}
    (he : e ∈ olds ++ news) (hf : f ∈ olds ++ news)
    (hpos : e.pos = f.pos) : e = f :=
  mem_same_pos (live_pairwise hc) he hf hpos

end Ctx

/-! ## Small evaluation helpers -/

theorem get4c_eval {c : Cache} {pos : Nat} (h : pos + 4 ≤ c.size) :
    get4c c pos = some (get4 c.x pos) := by
  unfold get4c
  rw [if_neg (by omega)]

theorem set4c_eval {c : Cache} {pos : Nat} (u : Nat) (h : pos + 4 ≤ c.size) :
    set4c c pos u = some { c with x := put4 c.x pos u } := by
  unfold set4c
  rw [if_neg (by omega)]

theorem get4_put4_ne (a : Arena) (p u q : Nat) (h : p + 4 ≤ q ∨ q + 4 ≤ p) :
    get4 (put4 a p u) q = get4 a q :=
  get4_congr (agreeOn_put4 a p u q (q + 4) h)

theorem get4c_eval_x {c : Cache} (xN : Arena) {pos : Nat} (h : pos + 4 ≤ c.size) :
    get4c { c with x := xN } pos = some (get4 xN pos) :=
  get4c_eval (c := { c with x := xN }) h

theorem xor_lt_32 {a b : Nat} (ha : a < 4294967296) (hb : b < 4294967296) :
    a ^^^ b < 4294967296 := by
  have : (4294967296:Nat) = 2 ^ 32 := by norm_num
  rw [this] at ha hb ⊢
  exact Nat.xor_lt_two_pow ha hb

/-! ## Frame lemmas for a 4-byte patch at an entry's link field -/

/-- Patching the link field of live entry `e2` does not disturb the payload
window (`keylen`/`datalen`/`expire`/key/data) of any live entry `f`. -/
theorem patch_at_entry {live : List Ent} (hpw : live.Pairwise Disj) {e2 f : Ent}
    (he2 : e2 ∈ live) (hf : f ∈ live) (a : Arena) (v : Nat) :
    agreeOn (put4 a e2.pos v) a (f.pos + 4) (f.pos + elen f) := by
  apply agreeOn_put4
  by_cases hp : e2.pos = f.pos
  · exact Or.inl (by omega)
  · have hd : Disj e2 f := hpw.forall disj_symm he2 hf (fun hq => hp (by rw [hq]))
    have h1 := elen_pos e2
    have h2 := elen_pos f
    unfold Disj at hd
    rcases hd with h | h
    · exact Or.inl (by omega)
    · exact Or.inr (by omega)

/-- Patching the link field of live entry `e2` does not disturb the link field
of a live entry `f` at a different offset. -/
theorem patch_at_entry_link {live : List Ent} (hpw : live.Pairwise Disj) {e2 f : Ent}
    (he2 : e2 ∈ live) (hf : f ∈ live) (hne : e2.pos ≠ f.pos) (a : Arena) (v : Nat) :
    get4 (put4 a e2.pos v) f.pos = get4 a f.pos := by
  have hd : Disj e2 f := hpw.forall disj_symm he2 hf (fun hq => hne (by rw [hq]))
  have h1 := elen_pos e2
  have h2 := elen_pos f
  unfold Disj at hd
  apply get4_put4_ne
  rcases hd with h | h
  · exact Or.inl (by omega)
  · exact Or.inr (by omega)

theorem agePositions_nodup {live : List Ent} (hpw : live.Pairwise Disj)
    (hsz b : Nat) : (agePositions hsz live b).Nodup := by
  unfold agePositions
  have h1 : (live.filter (fun e => hashB hsz e.key = b)).Pairwise Disj := hpw.filter _
  refine List.Pairwise.map _ ?_ h1
  intro a b hd
  have h1 := elen_pos a
  have h2 := elen_pos b
  unfold Disj at hd
  simp only [Ne]
  omega

/-! ## One evaluation of `evictOne` under resolved guards -/

theorem evictOne_eval {c : Cache} {pv kl dl : Nat}
    (h1 : c.oldest + 12 ≤ c.size)
    (hpv : get4 c.x c.oldest = pv)
    (h2 : pv + 4 ≤ c.size)
    (hkl : get4 (put4 c.x pv (get4 c.x pv ^^^ c.oldest)) (c.oldest + 4) = kl)
    (hdl : get4 (put4 c.x pv (get4 c.x pv ^^^ c.oldest)) (c.oldest + 8) = dl)
    (hnw : c.oldest + kl + dl + 20 < 4294967296)
    (hle : c.oldest + kl + dl + 20 ≤ c.unused) :
    evictOne c = some (
      if c.oldest + kl + dl + 20 = c.unused then
        { c with x := put4 c.x pv (get4 c.x pv ^^^ c.oldest),
                 oldest := c.size, unused := c.size }
      else
        { c with x := put4 c.x pv (get4 c.x pv ^^^ c.oldest),
                 oldest := c.oldest + kl + dl + 20 }) := by
  unfold evictOne
  rw [get4c_eval (by omega)]
  simp only [Option.bind_eq_bind, Option.some_bind]
  rw [hpv, get4c_eval h2]
  simp only [Option.some_bind]
  rw [set4c_eval _ h2]
  simp only [Option.some_bind]
  rw [get4c_eval_x (put4 c.x pv (get4 c.x pv ^^^ c.oldest))
    (show c.oldest + 4 + 4 ≤ c.size by omega)]
  simp only [Option.some_bind]
  rw [get4c_eval_x (put4 c.x pv (get4 c.x pv ^^^ c.oldest))
    (show c.oldest + 8 + 4 ≤ c.size by omega)]
  simp only [Option.some_bind]
  rw [hkl, hdl, Nat.mod_eq_of_lt hnw, if_neg (by omega)]
  by_cases hfull : c.oldest + kl + dl + 20 = c.unused
  · rw [if_pos hfull, if_pos hfull]
  · rw [if_neg hfull, if_neg hfull]

/-! ## The eviction step preserves the representation
(`cache.c` lines 309–317) -/

/-- The common tail of the eviction step: advance `oldest` (or empty both
regions), given the patched arena still represents the remaining entries. -/
theorem evict_finish {c : Cache} {e : Ent} {olds news : List Ent} {xN : Arena}
    (hsz : 100 ≤ c.size) (hszU : c.size ≤ 1000000000)
    (hs4 : 4 ≤ c.hsize) (h16 : c.hsize ≤ c.size / 16) (hpow : ∃ k, c.hsize = 2 ^ k)
    (hwlo : c.hsize ≤ c.writer) (holo : c.writer ≤ c.oldest)
    (hulo : c.oldest ≤ c.unused) (hslo : c.unused ≤ c.size) (hlt : c.oldest < c.unused)
    (helen2 : elen e = 20 + e.key.length + e.data.length)
    (htO' : tiles olds (c.oldest + elen e) c.unused)
    (htN : tiles news c.hsize c.writer)
    (hev : evictOne c = some (
      if c.oldest + e.key.length + e.data.length + 20 = c.unused then
        { c with x := xN, oldest := c.size, unused := c.size }
      else { c with x := xN, oldest := c.oldest + e.key.length + e.data.length + 20 }))
    (hentF : ∀ f ∈ olds ++ news, entRep xN f)
    (hchF : ∀ b, b < c.hsize → b % 4 = 0 →
      chainAge xN b 0 (agePositions c.hsize (olds ++ news) b)) :
    ∃ c1, evictOne c = some c1 ∧ Ctx c1 olds news ∧
      c1.size = c.size ∧ c1.hsize = c.hsize ∧ c1.writer = c.writer ∧
      c1.options = c.options ∧ c1.unused - c1.oldest < c.unused - c.oldest := by
  have hle := tiles_le _ _ _ htO'
  by_cases hfull : c.oldest + e.key.length + e.data.length + 20 = c.unused
  · rw [if_pos hfull] at hev
    have heq : c.oldest + elen e = c.unused := by omega
    rw [heq] at htO'
    have holds0 : olds = [] := tiles_nil_of_eq htO'
    refine ⟨_, hev, ?_, rfl, rfl, rfl, rfl, ?_⟩
    · exact ⟨hsz, hszU, hs4, h16, hpow, hwlo,
        (show c.writer ≤ c.size by omega), le_refl c.size, le_refl c.size,
        fun _ => rfl, (by rw [holds0]; exact rfl), htN, hentF, hchF⟩
    · show c.size - c.size < c.unused - c.oldest
      omega
  · rw [if_neg hfull] at hev
    refine ⟨_, hev, ?_, rfl, rfl, rfl, rfl, ?_⟩
    · exact ⟨hsz, hszU, hs4, h16, hpow, hwlo,
        (show c.writer ≤ c.oldest + e.key.length + e.data.length + 20 by omega),
        (show c.oldest + e.key.length + e.data.length + 20 ≤ c.unused by omega),
        hslo, fun hq => absurd hq hfull,
        (by
          rw [show c.oldest + e.key.length + e.data.length + 20 = c.oldest + elen e by omega]
          exact htO'),
        htN, hentF, hchF⟩
    · show c.unused - (c.oldest + e.key.length + e.data.length + 20) < c.unused - c.oldest
      omega

theorem evict_step {c : Cache} {e : Ent} {olds news : List Ent}
    (hc : Ctx c (e :: olds) news) (hlt : c.oldest < c.unused) :
    ∃ c1, evictOne c = some c1 ∧ Ctx c1 olds news ∧
      c1.size = c.size ∧ c1.hsize = c.hsize ∧ c1.writer = c.writer ∧
      c1.options = c.options ∧ c1.unused - c1.oldest < c.unused - c.oldest := by
  obtain ⟨hepos, htO'⟩ := hc.tO
  have heB := tiles_le _ _ _ htO'
  have heLen := elen_pos e
  have hsz := hc.size_lb
  have hszU := hc.size_ub
  have hs4 := hc.hsize4
  have hss := hc.hsize_le_size
  have h16 := hc.hsize16
  have hpow := hc.hsize_pow
  have hwlo := hc.wlo
  have holo := hc.olo
  have hulo := hc.ulo
  have hslo := hc.slo
  have hentE := hc.ent e (List.mem_append_left _ (List.mem_cons_self _ _))
  obtain ⟨hkl, hdl, _, _, _, hklb, hdlb⟩ := hentE
  have helen_eq : elen e = 20 + e.key.length + e.data.length := rfl
  have hsm4 : c.hsize % 4 = 0 := by
    obtain ⟨k, hk⟩ := hpow
    have hk2 : 2 ≤ k := by
      by_contra hcc
      push_neg at hcc
      interval_cases k <;> omega
    have : (4:Nat) ∣ 2 ^ k :=
      ⟨2 ^ (k - 2), by rw [show (4:Nat) = 2 ^ 2 by norm_num, ← pow_add]; congr 1; omega⟩
    omega
  obtain ⟨hbe4, hbeal⟩ := hc.bucket_ok e.key
  set be := hashB c.hsize e.key with hbe
  have hbelt : be < c.hsize := by omega
  have hch := hc.ch be hbelt hbeal
  have hcons : agePositions c.hsize ((e :: olds) ++ news) be
      = e.pos :: agePositions c.hsize (olds ++ news) be := by
    rw [List.cons_append, agePositions_cons, if_pos rfl]
  rw [hcons] at hch
  obtain ⟨hlink, hchain⟩ := hch
  rw [Nat.zero_xor] at hlink
  have hmem_live : ∀ f ∈ olds ++ news, f ∈ (e :: olds) ++ news := by
    intro f hf
    rw [List.cons_append]
    exact List.mem_cons_of_mem _ hf
  have hpwAll : ((e :: olds) ++ news).Pairwise Disj := live_pairwise hc
  have hpwCons : (e :: (olds ++ news)).Pairwise Disj := by
    rw [← List.cons_append]; exact hpwAll
  obtain ⟨hDe, hpwR⟩ := List.pairwise_cons.mp hpwCons
  have heLive : e ∈ (e :: olds) ++ news :=
    List.mem_append_left _ (List.mem_cons_self _ _)
  have hoB : c.oldest + 12 ≤ c.size := by omega
  cases htlc : agePositions c.hsize (olds ++ news) be with
  | nil =>
    rw [htlc] at hlink hchain
    simp only [List.headD_nil] at hlink
    have hheadv : get4 c.x be = e.pos := hchain
    have hx1read : get4 c.x c.oldest = be := by rw [← hepos]; exact hlink
    have hpvS : be + 4 ≤ c.size := by omega
    have hvalz : get4 c.x be ^^^ c.oldest = 0 := by
      rw [hheadv, hepos, Nat.xor_self]
    have hx1z : get4 (put4 c.x be (get4 c.x be ^^^ c.oldest)) be = 0 := by
      rw [hvalz, get4_put4_of_lt _ _ _ (by norm_num)]
    have hagKL : agreeOn (put4 c.x be (get4 c.x be ^^^ c.oldest)) c.x
        (c.oldest + 4) (c.oldest + 12) :=
      agreeOn_put4 _ _ _ _ _ (Or.inl (by omega))
    have hklv : get4 (put4 c.x be (get4 c.x be ^^^ c.oldest)) (c.oldest + 4)
        = e.key.length := by
      rw [get4_congr (agreeOn_mono hagKL (by omega) (by omega)), ← hepos, hkl]
    have hdlv : get4 (put4 c.x be (get4 c.x be ^^^ c.oldest)) (c.oldest + 8)
        = e.data.length := by
      rw [get4_congr (agreeOn_mono hagKL (by omega) (by omega)), ← hepos, hdl]
    have hev := evictOne_eval hoB hx1read hpvS hklv hdlv (by omega) (by omega)
    have hentF : ∀ f ∈ olds ++ news,
        entRep (put4 c.x be (get4 c.x be ^^^ c.oldest)) f := by
      intro f hf
      have hb := hc.bounds f (hmem_live f hf)
      exact entRep_congr (agreeOn_put4 _ _ _ _ _ (Or.inl (by omega)))
        (hc.ent f (hmem_live f hf))
    have hchF : ∀ b, b < c.hsize → b % 4 = 0 →
        chainAge (put4 c.x be (get4 c.x be ^^^ c.oldest)) b 0
          (agePositions c.hsize (olds ++ news) b) := by
      intro b hblt hbal
      by_cases hbb : b = be
      · subst hbb
        rw [htlc]
        exact hx1z
      · have hlist : agePositions c.hsize ((e :: olds) ++ news) b
            = agePositions c.hsize (olds ++ news) b := by
          rw [List.cons_append, agePositions_cons,
            if_neg (fun hq => hbb ((hbe.trans hq).symm))]
        have horig := hc.ch b hblt hbal
        rw [hlist] at horig
        refine chainAge_congr ?_ ?_ horig
        · exact get4_put4_ne _ _ _ _ (aligned_disjoint hbeal hbal (fun hq => hbb hq.symm))
        · intro q hq
          obtain ⟨f, hfm, hfp, _⟩ := agePositions_mem hq
          have hb := hc.bounds f (hmem_live f hfm)
          exact get4_put4_ne _ _ _ _ (Or.inl (by omega))
    exact evict_finish hsz hszU hs4 h16 hpow hwlo holo hulo hslo hlt helen_eq
      htO' hc.tN hev hentF hchF
  | cons p2 t' =>
    rw [htlc] at hlink hchain
    simp only [List.headD_cons] at hlink
    obtain ⟨hlk2, hch2⟩ := hchain
    have hp2tl : p2 ∈ agePositions c.hsize (olds ++ news) be := by
      rw [htlc]
      exact List.mem_cons_self _ _
    obtain ⟨e2, he2m, he2p, he2h⟩ := agePositions_mem hp2tl
    have he2live : e2 ∈ (e :: olds) ++ news := hmem_live e2 he2m
    have he2b := hc.bounds e2 he2live
    have he2len := elen_pos e2
    have hpvS : p2 + 4 ≤ c.size := by omega
    have hx1read : get4 c.x c.oldest = p2 := by rw [← hepos]; exact hlink
    have hhdb : t'.headD be ≤ c.size := by
      cases ht' : t' with
      | nil =>
        simp only [List.headD_nil]
        omega
      | cons q r =>
        simp only [List.headD_cons]
        have hqtl : q ∈ agePositions c.hsize (olds ++ news) be := by
          rw [htlc, ht']
          exact List.mem_cons_of_mem _ (List.mem_cons_self _ _)
        obtain ⟨f, hfm, hfp, _⟩ := agePositions_mem hqtl
        have hb := hc.bounds f (hmem_live f hfm)
        have := elen_pos f
        omega
    have hpatchv : get4 c.x p2 ^^^ c.oldest = t'.headD be := by
      rw [hlk2, hepos, Nat.xor_comm c.oldest (t'.headD be), Nat.xor_assoc,
        Nat.xor_self, Nat.xor_zero]
    have hx1p2 : get4 (put4 c.x p2 (get4 c.x p2 ^^^ c.oldest)) p2 = t'.headD be := by
      rw [get4_put4_self, hpatchv, Nat.mod_eq_of_lt (by omega)]
    have hagKL : agreeOn (put4 c.x p2 (get4 c.x p2 ^^^ c.oldest)) c.x
        (e.pos + 4) (e.pos + elen e) := by
      have hfr := patch_at_entry hpwAll he2live heLive c.x (get4 c.x p2 ^^^ c.oldest)
      rw [he2p] at hfr
      exact hfr
    have hklv : get4 (put4 c.x p2 (get4 c.x p2 ^^^ c.oldest)) (c.oldest + 4)
        = e.key.length := by
      rw [get4_congr (agreeOn_mono hagKL (by omega) (by omega)), ← hepos, hkl]
    have hdlv : get4 (put4 c.x p2 (get4 c.x p2 ^^^ c.oldest)) (c.oldest + 8)
        = e.data.length := by
      rw [get4_congr (agreeOn_mono hagKL (by omega) (by omega)), ← hepos, hdl]
    have hev := evictOne_eval hoB hx1read hpvS hklv hdlv (by omega) (by omega)
    have hentF : ∀ f ∈ olds ++ news,
        entRep (put4 c.x p2 (get4 c.x p2 ^^^ c.oldest)) f := by
      intro f hf
      have hfr := patch_at_entry hpwAll he2live (hmem_live f hf) c.x
        (get4 c.x p2 ^^^ c.oldest)
      rw [he2p] at hfr
      exact entRep_congr hfr (hc.ent f (hmem_live f hf))
    have hnd : (agePositions c.hsize (olds ++ news) be).Nodup :=
      agePositions_nodup hpwR _ _
    have hndc : p2 ∉ t' := by
      rw [htlc] at hnd
      exact (List.nodup_cons.mp hnd).1
    have hchF : ∀ b, b < c.hsize → b % 4 = 0 →
        chainAge (put4 c.x p2 (get4 c.x p2 ^^^ c.oldest)) b 0
          (agePositions c.hsize (olds ++ news) b) := by
      intro b hblt hbal
      by_cases hbb : b = be
      · subst hbb
        rw [htlc]
        refine ⟨?_, ?_⟩
        · rw [Nat.zero_xor]
          exact hx1p2
        · refine chainAge_congr ?_ ?_ hch2
          · exact get4_put4_ne _ _ _ _ (Or.inr (by omega))
          · intro q hq
            have hqtl : q ∈ agePositions c.hsize (olds ++ news) be := by
              rw [htlc]
              exact List.mem_cons_of_mem _ hq
            obtain ⟨f, hfm, hfp, hfh⟩ := agePositions_mem hqtl
            have hqne : e2.pos ≠ f.pos := by
              rw [he2p, hfp]
              exact fun h => hndc (h ▸ hq)
            have hfr := patch_at_entry_link hpwAll he2live (hmem_live f hfm) hqne c.x
              (get4 c.x p2 ^^^ c.oldest)
            rw [he2p, hfp] at hfr
            exact hfr
      · have hlist : agePositions c.hsize ((e :: olds) ++ news) b
            = agePositions c.hsize (olds ++ news) b := by
          rw [List.cons_append, agePositions_cons,
            if_neg (fun hq => hbb ((hbe.trans hq).symm))]
        have horig := hc.ch b hblt hbal
        rw [hlist] at horig
        refine chainAge_congr ?_ ?_ horig
        · exact get4_put4_ne _ _ _ _ (Or.inr (by omega))
        · intro q hq
          obtain ⟨f, hfm, hfp, hfh⟩ := agePositions_mem hq
          have hqne : e2.pos ≠ f.pos := by
            intro hq2
            have hef : e2 = f := hc.pos_inj he2live (hmem_live f hfm) hq2
            apply hbb
            rw [← hfh, ← hef]
            exact he2h
          have hfr := patch_at_entry_link hpwAll he2live (hmem_live f hfm) hqne c.x
            (get4 c.x p2 ^^^ c.oldest)
          rw [he2p, hfp] at hfr
          exact hfr
    exact evict_finish hsz hszU hs4 h16 hpow hwlo holo hulo hslo hlt helen_eq
      htO' hc.tN hev hentF hchF

/-! ## Appending the newest element to a chain -/

theorem foldl_hash_norm : ∀ (l : List Nat) (r : Nat),
    (l.map (· % 256)).foldl (fun r b => ((r * 32 + r) % 4294967296) ^^^ (b % 256)) r
      = l.foldl (fun r b => ((r * 32 + r) % 4294967296) ^^^ (b % 256)) r := by
  intro l
  induction l with
  | nil => intro r; rfl
  | cons b t ih =>
    intro r
    simp only [List.map_cons, List.foldl_cons]
    rw [Nat.mod_mod_of_dvd b (dvd_refl 256), ih]

theorem hashB_norm (k : Nat) (key : List Nat) :
    hashB k (key.map (· % 256)) = hashB k key := by
  unfold hashB
  rw [foldl_hash_norm]

theorem chainAge_snoc {a a' : Arena} {b w : Nat} : ∀ {n : Nat} {l : List Nat},
    chainAge a b n l →
    (∀ q ∈ l.dropLast, get4 a' q = get4 a q) →
    (l ≠ [] → get4 a' (l.getLastD n) = get4 a (l.getLastD n) ^^^ b ^^^ w) →
    get4 a' w = l.getLastD n ^^^ b →
    get4 a' b = w →
    chainAge a' b n (l ++ [w]) := by
  intro n l
  induction l generalizing n with
  | nil =>
    intro _ _ _ hw hh
    exact ⟨hw, hh⟩
  | cons q rest ih =>
    intro h hkeep hlast hw hh
    obtain ⟨hq, hrest⟩ := h
    cases hre : rest with
    | nil =>
      subst hre
      have hq' : get4 a q = n ^^^ b := hq
      have hlast' : get4 a' q = get4 a q ^^^ b ^^^ w := hlast (List.cons_ne_nil _ _)
      refine ⟨?_, ?_⟩
      · show get4 a' q = n ^^^ w
        rw [hlast', hq', Nat.xor_assoc, Nat.xor_assoc]
        congr 1
        rw [← Nat.xor_assoc, Nat.xor_self, Nat.zero_xor]
      · exact ih hrest (fun p hp => absurd hp (by simp))
          (fun hx => absurd rfl hx) hw hh
    | cons r rs =>
      subst hre
      have hq' : get4 a q = n ^^^ r := hq
      refine ⟨?_, ?_⟩
      · show get4 a' q = n ^^^ r
        rw [hkeep q (List.mem_cons_self q _), hq']
      · exact ih hrest (fun p hp => hkeep p (List.mem_cons_of_mem q hp))
          (fun _ => hlast (List.cons_ne_nil _ _)) hw hh

/-! ## Evaluation of the append phase under resolved guards -/

theorem set4c_eval_x {c : Cache} (xN : Arena) {pos : Nat} (u : Nat) (h : pos + 4 ≤ c.size) :
    set4c { c with x := xN } pos u = some { c with x := put4 xN pos u } := by
  rw [set4c_eval (c := { c with x := xN }) u h]

theorem set4c_eval_xt {c : Cache} (xN : Arena) (ts : TtlStats) {pos : Nat} (u : Nat)
    (h : pos + 4 ≤ c.size) :
    set4c { c with x := xN, ttl := ts } pos u
      = some { c with x := put4 xN pos u, ttl := ts } := by
  rw [set4c_eval (c := { c with x := xN, ttl := ts }) u h]

/-- `appendEntry` when the bucket head slot is empty (`pos == 0`:
no predecessor patch). -/
theorem appendEntry_eval_zero {c : Cache} (key data : List Nat) (ttl now : Nat)
    (hkbS : hashB c.hsize key + 4 ≤ c.size)
    (hW : c.writer + 12 ≤ c.size)
    (h0 : get4 c.x (hashB c.hsize key) = 0) :
    appendEntry c key data ttl now = some
      { c with
        x := put4 (writeBytes (writeBytes (put8 (put4 (put4 (put4 c.x
                c.writer (0 ^^^ hashB c.hsize key))
                (c.writer + 4) key.length)
                (c.writer + 8) data.length)
                (c.writer + 12) ((now + ttl) % 2 ^ 64))
                (c.writer + 20) key)
                (c.writer + 20 + key.length) data)
              (hashB c.hsize key) c.writer
        writer := c.writer + (key.length + data.length + 20)
        cache_motion := (c.cache_motion + (key.length + data.length + 20)) % 2 ^ 64
        ttl := (cycle_stats_add_ttl c ttl).ttl } := by
  unfold appendEntry hash
  simp only [Option.bind_eq_bind]
  rw [get4c_eval hkbS]
  simp only [Option.some_bind]
  rw [h0, if_neg (fun hx => hx rfl)]
  simp only [Option.pure_def, Option.some_bind]
  rw [set4c_eval _ (by omega)]
  simp only [Option.some_bind]
  rw [set4c_eval_x _ _ (by omega)]
  simp only [Option.some_bind]
  rw [set4c_eval_x _ _ (by omega)]
  simp only [Option.some_bind, cycle_stats_add_ttl]
  rw [set4c_eval_xt _ _ _ hkbS]
  simp only [Option.some_bind]

/-- `appendEntry` when the bucket has a head entry at `pos ≠ 0`: the head
entry's link is patched to record the new predecessor. -/
theorem appendEntry_eval_head {c : Cache} (key data : List Nat) (ttl now : Nat)
    (hkbS : hashB c.hsize key + 4 ≤ c.size)
    (hW : c.writer + 12 ≤ c.size)
    (hne : get4 c.x (hashB c.hsize key) ≠ 0)
    (hpb : get4 c.x (hashB c.hsize key) + 4 ≤ c.size) :
    appendEntry c key data ttl now = some
      { c with
        x := put4 (writeBytes (writeBytes (put8 (put4 (put4 (put4
                (put4 c.x (get4 c.x (hashB c.hsize key))
                  (get4 c.x (get4 c.x (hashB c.hsize key)) ^^^ hashB c.hsize key ^^^ c.writer))
                c.writer (get4 c.x (hashB c.hsize key) ^^^ hashB c.hsize key))
                (c.writer + 4) key.length)
                (c.writer + 8) data.length)
                (c.writer + 12) ((now + ttl) % 2 ^ 64))
                (c.writer + 20) key)
                (c.writer + 20 + key.length) data)
              (hashB c.hsize key) c.writer
        writer := c.writer + (key.length + data.length + 20)
        cache_motion := (c.cache_motion + (key.length + data.length + 20)) % 2 ^ 64
        ttl := (cycle_stats_add_ttl c ttl).ttl } := by
  unfold appendEntry hash
  simp only [Option.bind_eq_bind]
  rw [get4c_eval hkbS]
  simp only [Option.some_bind]
  rw [if_pos hne]
  rw [get4c_eval hpb]
  simp only [Option.some_bind]
  rw [set4c_eval _ hpb]
  simp only [Option.some_bind]
  rw [set4c_eval_x _ _ (by omega)]
  simp only [Option.some_bind]
  rw [set4c_eval_x _ _ (by omega)]
  simp only [Option.some_bind]
  rw [set4c_eval_x _ _ (by omega)]
  simp only [Option.some_bind, cycle_stats_add_ttl]
  rw [set4c_eval_xt _ _ _ hkbS]
  simp only [Option.some_bind]


theorem getLastD_mem : ∀ (l : List Nat) (d : Nat), l ≠ [] → l.getLastD d ∈ l := by
  intro l
  induction l with
  | nil => intro d h; exact absurd rfl h
  | cons a t ih =>
    intro d _
    cases ht : t with
    | nil =>
      subst ht
      simp [List.getLastD_cons, List.getLastD_nil]
    | cons b r =>
      subst ht
      rw [List.getLastD_cons]
      exact List.mem_cons_of_mem _ (ih a (List.cons_ne_nil _ _))

theorem mem_of_mem_dropLast : ∀ (l : List Nat) (q : Nat), q ∈ l.dropLast → q ∈ l := by
  intro l
  induction l with
  | nil => intro q hq; exact absurd hq (by simp)
  | cons a t ih =>
    intro q hq
    cases ht : t with
    | nil =>
      subst ht
      simp [List.dropLast] at hq
    | cons b r =>
      subst ht
      have hq' : q ∈ a :: (b :: r).dropLast := hq
      rcases List.mem_cons.mp hq' with h1 | h1
      · exact h1 ▸ List.mem_cons_self _ _
      · exact List.mem_cons_of_mem _ (ih q h1)

theorem dropLast_ne_getLastD : ∀ (l : List Nat), l.Nodup →
    ∀ q ∈ l.dropLast, ∀ d, q ≠ l.getLastD d := by
  intro l
  induction l with
  | nil => intro _ q hq; exact absurd hq (by simp)
  | cons a t ih =>
    intro hnd q hq d
    cases ht : t with
    | nil =>
      subst ht
      simp [List.dropLast] at hq
    | cons b r =>
      subst ht
      rw [List.getLastD_cons]
      have hnd' := List.nodup_cons.mp hnd
      have hq' : q ∈ a :: (b :: r).dropLast := hq
      rcases List.mem_cons.mp hq' with h1 | h1
      · subst h1
        intro hEq
        exact hnd'.1 (hEq ▸ getLastD_mem (b :: r) q (List.cons_ne_nil _ _))
      · exact ih hnd'.2 q h1 a

/-! ## The append phase preserves the representation
(`cache.c` lines 320–343) -/

/-- Core of the append-phase correctness, abstracted over the arena `x1`
obtained after the head entry's link patch (`x1 = c.x` when the bucket was
empty). -/
theorem append_core {c : Cache} {olds news : List Ent} (key data : List Nat)
    (ttl now : Nat) (x1 : Arena)
    (hc : Ctx c olds news)
    (hkb : key.length ≤ 1000) (hdb : data.length ≤ 1000000)
    (hroom : c.writer + (key.length + data.length + 20) ≤ c.oldest)
    (h1pay : ∀ f ∈ olds ++ news, agreeOn x1 c.x (f.pos + 4) (f.pos + elen f))
    (h1head : ∀ b, b < c.hsize → b % 4 = 0 → get4 x1 b = get4 c.x b)
    (h1link : ∀ f ∈ olds ++ news,
      (agePositions c.hsize (olds ++ news) (hashB c.hsize key) = [] ∨
        f.pos ≠ (agePositions c.hsize (olds ++ news) (hashB c.hsize key)).getLastD 0) →
      get4 x1 f.pos = get4 c.x f.pos)
    (h1last : agePositions c.hsize (olds ++ news) (hashB c.hsize key) ≠ [] →
      get4 x1 ((agePositions c.hsize (olds ++ news) (hashB c.hsize key)).getLastD 0)
        = get4 c.x ((agePositions c.hsize (olds ++ news) (hashB c.hsize key)).getLastD 0)
          ^^^ hashB c.hsize key ^^^ c.writer) :
    Ctx { c with
          x := put4 (writeBytes (writeBytes (put8 (put4 (put4 (put4 x1
                  c.writer (get4 c.x (hashB c.hsize key) ^^^ hashB c.hsize key))
                  (c.writer + 4) key.length)
                  (c.writer + 8) data.length)
                  (c.writer + 12) ((now + ttl) % 2 ^ 64))
                  (c.writer + 20) key)
                  (c.writer + 20 + key.length) data)
                (hashB c.hsize key) c.writer
          writer := c.writer + (key.length + data.length + 20)
          cache_motion := (c.cache_motion + (key.length + data.length + 20)) % 2 ^ 64
          ttl := (cycle_stats_add_ttl c ttl).ttl }
        olds (news ++ [⟨c.writer, key.map (· % 256), data.map (· % 256), (now + ttl) % 2 ^ 64⟩]) := by
  have hsz := hc.size_lb
  have hszU := hc.size_ub
  have hs4 := hc.hsize4
  have h16 := hc.hsize16
  have hpow := hc.hsize_pow
  have hss := hc.hsize_le_size
  have hsm4 := hc.hsize4mod
  have hwlo := hc.wlo
  have holo := hc.olo
  have hulo := hc.ulo
  have hslo := hc.slo
  obtain ⟨hkb4, hkbal⟩ := hc.bucket_ok key
  set KB := hashB c.hsize key with hKB
  have hkblt : KB < c.hsize := by omega
  have hkbS : KB + 4 ≤ c.size := by omega
  have hWel : c.writer + (key.length + data.length + 20) ≤ c.size := by omega
  have hchL := hc.ch KB hkblt hkbal
  set L := agePositions c.hsize (olds ++ news) KB with hL
  have hheadL : get4 c.x KB = L.getLastD 0 := chainAge_head hchL
  set A1 := put4 x1 c.writer (get4 c.x KB ^^^ KB) with hA1
  set A2 := put4 A1 (c.writer + 4) key.length with hA2
  set A3 := put4 A2 (c.writer + 8) data.length with hA3
  set A4 := put8 A3 (c.writer + 12) ((now + ttl) % 2 ^ 64) with hA4
  set A5 := writeBytes A4 (c.writer + 20) key with hA5
  set A6 := writeBytes A5 (c.writer + 20 + key.length) data with hA6
  set A7 := put4 A6 KB c.writer with hA7
  -- the writes above `x1` do not disturb windows outside `[writer, writer+el)`
  -- that sit at or above `hsize`
  have hagUp : ∀ lo hi, c.hsize ≤ lo →
      (hi ≤ c.writer ∨ c.writer + (key.length + data.length + 20) ≤ lo) →
      agreeOn A7 x1 lo hi := by
    intro lo hi hlo hside
    rw [hA7]
    refine agreeOn_trans (agreeOn_put4 _ _ _ lo hi (Or.inl (by omega))) ?_
    rw [hA6]
    refine agreeOn_trans (agreeOn_writeBytes _ data _ lo hi ?_) ?_
    · rcases hside with h | h
      · exact Or.inr (by omega)
      · exact Or.inl (by omega)
    rw [hA5]
    refine agreeOn_trans (agreeOn_writeBytes _ key _ lo hi ?_) ?_
    · rcases hside with h | h
      · exact Or.inr (by omega)
      · exact Or.inl (by omega)
    rw [hA4]
    refine agreeOn_trans (agreeOn_put8 _ _ _ lo hi ?_) ?_
    · rcases hside with h | h
      · exact Or.inr (by omega)
      · exact Or.inl (by omega)
    rw [hA3]
    refine agreeOn_trans (agreeOn_put4 _ _ _ lo hi ?_) ?_
    · rcases hside with h | h
      · exact Or.inr (by omega)
      · exact Or.inl (by omega)
    rw [hA2]
    refine agreeOn_trans (agreeOn_put4 _ _ _ lo hi ?_) ?_
    · rcases hside with h | h
      · exact Or.inr (by omega)
      · exact Or.inl (by omega)
    rw [hA1]
    refine agreeOn_put4 _ _ _ lo hi ?_
    rcases hside with h | h
    · exact Or.inr (by omega)
    · exact Or.inl (by omega)
  -- reads of the freshly written entry
  have hrW : get4 A7 c.writer = get4 c.x KB ^^^ KB := by
    rw [hA7, get4_put4_ne _ _ _ _ (Or.inl (by omega)), hA6,
      get4_congr (agreeOn_writeBytes _ data _ c.writer (c.writer + 4) (Or.inr (by omega))),
      hA5,
      get4_congr (agreeOn_writeBytes _ key _ c.writer (c.writer + 4) (Or.inr (by omega))),
      hA4,
      get4_congr (agreeOn_put8 _ _ _ c.writer (c.writer + 4) (Or.inr (by omega))),
      hA3, get4_put4_ne _ _ _ _ (Or.inr (by omega)),
      hA2, get4_put4_ne _ _ _ _ (Or.inr (by omega)),
      hA1, get4_put4_of_lt _ _ _ (xor_lt_32 (get4_lt _ _) (by omega))]
  have hrKL : get4 A7 (c.writer + 4) = key.length := by
    rw [hA7, get4_put4_ne _ _ _ _ (Or.inl (by omega)), hA6,
      get4_congr (agreeOn_writeBytes _ data _ (c.writer + 4) (c.writer + 4 + 4)
        (Or.inr (by omega))),
      hA5,
      get4_congr (agreeOn_writeBytes _ key _ (c.writer + 4) (c.writer + 4 + 4)
        (Or.inr (by omega))),
      hA4,
      get4_congr (agreeOn_put8 _ _ _ (c.writer + 4) (c.writer + 4 + 4) (Or.inr (by omega))),
      hA3, get4_put4_ne _ _ _ _ (Or.inr (by omega)),
      hA2, get4_put4_of_lt _ _ _ (by omega)]
  have hrDL : get4 A7 (c.writer + 8) = data.length := by
    rw [hA7, get4_put4_ne _ _ _ _ (Or.inl (by omega)), hA6,
      get4_congr (agreeOn_writeBytes _ data _ (c.writer + 8) (c.writer + 8 + 4)
        (Or.inr (by omega))),
      hA5,
      get4_congr (agreeOn_writeBytes _ key _ (c.writer + 8) (c.writer + 8 + 4)
        (Or.inr (by omega))),
      hA4,
      get4_congr (agreeOn_put8 _ _ _ (c.writer + 8) (c.writer + 8 + 4) (Or.inr (by omega))),
      hA3, get4_put4_of_lt _ _ _ (by omega)]
  have hrEXP : get8 A7 (c.writer + 12) = (now + ttl) % 2 ^ 64 := by
    rw [hA7,
      get8_congr (agreeOn_put4 _ _ _ (c.writer + 12) (c.writer + 12 + 8) (Or.inl (by omega))),
      hA6,
      get8_congr (agreeOn_writeBytes _ data _ (c.writer + 12) (c.writer + 12 + 8)
        (Or.inr (by omega))),
      hA5,
      get8_congr (agreeOn_writeBytes _ key _ (c.writer + 12) (c.writer + 12 + 8)
        (Or.inr (by omega))),
      hA4, get8_put8_of_lt _ _ _ (Nat.mod_lt _ (by norm_num))]
  have hrKEY : readBytes A7 (c.writer + 20) key.length = key.map (· % 256) := by
    rw [hA7,
      readBytes_congr key.length (agreeOn_put4 _ _ _ (c.writer + 20)
        (c.writer + 20 + key.length) (Or.inl (by omega))),
      hA6,
      readBytes_congr key.length (agreeOn_writeBytes _ data _ (c.writer + 20)
        (c.writer + 20 + key.length) (Or.inr (by omega))),
      hA5]
    exact readBytes_writeBytes_self A4 key (c.writer + 20)
  have hrDATA : readBytes A7 (c.writer + 20 + key.length) data.length
      = data.map (· % 256) := by
    rw [hA7,
      readBytes_congr data.length (agreeOn_put4 _ _ _ (c.writer + 20 + key.length)
        (c.writer + 20 + key.length + data.length) (Or.inl (by omega))),
      hA6]
    exact readBytes_writeBytes_self A5 data (c.writer + 20 + key.length)
  have hrHEAD : get4 A7 KB = c.writer := by
    rw [hA7, get4_put4_of_lt _ _ _ (by omega)]
  have hrHEADSLOT : ∀ b, b < c.hsize → b % 4 = 0 → b ≠ KB → get4 A7 b = get4 x1 b := by
    intro b hblt hbal hne
    rw [hA7, get4_put4_ne _ _ _ _ (aligned_disjoint hkbal hbal (fun hq => hne hq.symm)),
      hA6, get4_congr (agreeOn_writeBytes _ data _ b (b + 4) (Or.inr (by omega))),
      hA5, get4_congr (agreeOn_writeBytes _ key _ b (b + 4) (Or.inr (by omega))),
      hA4, get4_congr (agreeOn_put8 _ _ _ b (b + 4) (Or.inr (by omega))),
      hA3, get4_put4_ne _ _ _ _ (Or.inr (by omega)),
      hA2, get4_put4_ne _ _ _ _ (Or.inr (by omega)),
      hA1, get4_put4_ne _ _ _ _ (Or.inr (by omega))]
  have hrLINKQ : ∀ f ∈ olds ++ news, get4 A7 f.pos = get4 x1 f.pos := by
    intro f hfm
    have hb := hc.bounds f hfm
    have hel := elen_pos f
    refine get4_congr (hagUp f.pos (f.pos + 4) (by omega) ?_)
    rcases hb.2.2 with h | h
    · exact Or.inl (by omega)
    · exact Or.inr (by omega)
  have hagOLD : ∀ f ∈ olds ++ news, agreeOn A7 c.x (f.pos + 4) (f.pos + elen f) := by
    intro f hfm
    have hb := hc.bounds f hfm
    have hel := elen_pos f
    refine agreeOn_trans (hagUp (f.pos + 4) (f.pos + elen f) (by omega) ?_) (h1pay f hfm)
    rcases hb.2.2 with h | h
    · exact Or.inl (by omega)
    · exact Or.inr (by omega)
  have hpw := live_pairwise hc
  have hnd : L.Nodup := agePositions_nodup hpw c.hsize KB
  -- the chain of the new entry's bucket, with the new entry appended
  have hchKB : chainAge A7 KB 0 (L ++ [c.writer]) := by
    refine chainAge_snoc hchL ?_ ?_ ?_ hrHEAD
    · intro q hq
      have hqL := mem_of_mem_dropLast _ _ hq
      obtain ⟨f, hfm, hfp, _⟩ := agePositions_mem hqL
      have hne : q ≠ L.getLastD 0 := dropLast_ne_getLastD _ hnd q hq 0
      have h1 : get4 A7 q = get4 x1 q := hfp ▸ hrLINKQ f hfm
      have h2 : get4 x1 q = get4 c.x q := by
        rw [← hfp]
        exact h1link f hfm (Or.inr (by rw [hfp]; exact hne))
      exact h1.trans h2
    · intro hLne
      have hPL := getLastD_mem L 0 hLne
      obtain ⟨eh, hehm, hehp, _⟩ := agePositions_mem hPL
      have h1 : get4 A7 (L.getLastD 0) = get4 x1 (L.getLastD 0) := hehp ▸ hrLINKQ eh hehm
      rw [h1, h1last hLne]
    · rw [hrW, hheadL]
  -- chains of other buckets are untouched
  have hchOTH : ∀ b, b < c.hsize → b % 4 = 0 → b ≠ KB →
      chainAge A7 b 0 (agePositions c.hsize (olds ++ news) b) := by
    intro b hblt hbal hbb
    refine chainAge_congr ?_ ?_ (hc.ch b hblt hbal)
    · rw [hrHEADSLOT b hblt hbal hbb, h1head b hblt hbal]
    · intro q hq
      obtain ⟨f, hfm, hfp, hfh⟩ := agePositions_mem hq
      have h1 : get4 A7 q = get4 x1 q := hfp ▸ hrLINKQ f hfm
      have h2 : get4 x1 f.pos = get4 c.x f.pos := by
        refine h1link f hfm ?_
        by_cases hLc : L = []
        · exact Or.inl hLc
        · refine Or.inr ?_
          intro hfl
          have hPL : L.getLastD 0 ∈ L := getLastD_mem L 0 hLc
          obtain ⟨eh, hehm, hehp, hehh⟩ := agePositions_mem hPL
          have hef : f = eh := hc.pos_inj hfm hehm (by rw [hfl, hehp])
          apply hbb
          rw [← hfh, hef, hehh]
      rw [h1, ← hfp, h2]
  -- assemble the context for the extended state
  have hnel : elen ⟨c.writer, key.map (· % 256), data.map (· % 256), (now + ttl) % 2 ^ 64⟩
      = 20 + key.length + data.length := by
    simp [elen]
  refine ⟨hsz, hszU, hs4, h16, hpow,
    (show c.hsize ≤ c.writer + (key.length + data.length + 20) by omega),
    (show c.writer + (key.length + data.length + 20) ≤ c.oldest from hroom),
    hulo, hslo, hc.full, hc.tO, ?_, ?_, ?_⟩
  · show tiles (news ++ [⟨c.writer, key.map (· % 256), data.map (· % 256),
      (now + ttl) % 2 ^ 64⟩]) c.hsize (c.writer + (key.length + data.length + 20))
    have ht := tiles_snoc hc.tN
      ⟨c.writer, key.map (· % 256), data.map (· % 256), (now + ttl) % 2 ^ 64⟩ rfl
    rw [hnel] at ht
    rw [show c.writer + (key.length + data.length + 20)
      = c.writer + (20 + key.length + data.length) by omega]
    exact ht
  · show ∀ f ∈ olds ++ (news ++ [⟨c.writer, key.map (· % 256), data.map (· % 256),
      (now + ttl) % 2 ^ 64⟩]), entRep A7 f
    intro f hf
    rcases List.mem_append.mp hf with hfo | hfn
    · exact entRep_congr (hagOLD f (List.mem_append_left _ hfo))
        (hc.ent f (List.mem_append_left _ hfo))
    rcases List.mem_append.mp hfn with hfn1 | hfn2
    · exact entRep_congr (hagOLD f (List.mem_append_right _ hfn1))
        (hc.ent f (List.mem_append_right _ hfn1))
    · have hfe : f = ⟨c.writer, key.map (· % 256), data.map (· % 256),
        (now + ttl) % 2 ^ 64⟩ := by simpa using hfn2
      subst hfe
      refine ⟨?_, ?_, ?_, ?_, ?_, ?_, ?_⟩
      · show get4 A7 (c.writer + 4) = (key.map (· % 256)).length
        rw [List.length_map]
        exact hrKL
      · show get4 A7 (c.writer + 8) = (data.map (· % 256)).length
        rw [List.length_map]
        exact hrDL
      · exact hrEXP
      · show readBytes A7 (c.writer + 20) (key.map (· % 256)).length = key.map (· % 256)
        rw [List.length_map]
        exact hrKEY
      · show readBytes A7 (c.writer + 20 + (key.map (· % 256)).length)
          (data.map (· % 256)).length = data.map (· % 256)
        rw [List.length_map, List.length_map]
        exact hrDATA
      · show (key.map (· % 256)).length ≤ 1000
        rw [List.length_map]
        exact hkb
      · show (data.map (· % 256)).length ≤ 1000000
        rw [List.length_map]
        exact hdb
  · show ∀ b, b < c.hsize → b % 4 = 0 →
      chainAge A7 b 0 (agePositions c.hsize
        (olds ++ (news ++ [⟨c.writer, key.map (· % 256), data.map (· % 256),
          (now + ttl) % 2 ^ 64⟩])) b)
    intro b hblt hbal
    have hsplit : agePositions c.hsize
        (olds ++ (news ++ [⟨c.writer, key.map (· % 256), data.map (· % 256),
          (now + ttl) % 2 ^ 64⟩])) b
        = agePositions c.hsize (olds ++ news) b
          ++ agePositions c.hsize [⟨c.writer, key.map (· % 256), data.map (· % 256),
              (now + ttl) % 2 ^ 64⟩] b := by
      rw [← List.append_assoc, agePositions_append]
    by_cases hbb : b = KB
    · subst hbb
      rw [hsplit]
      have hcond : hashB c.hsize (Ent.key ⟨c.writer, key.map (· % 256),
          data.map (· % 256), (now + ttl) % 2 ^ 64⟩) = KB := by
        show hashB c.hsize (key.map (· % 256)) = KB
        rw [hashB_norm]
      have hsing : agePositions c.hsize [⟨c.writer, key.map (· % 256), data.map (· % 256),
          (now + ttl) % 2 ^ 64⟩] KB = [c.writer] := by
        rw [agePositions_cons, if_pos hcond]
        rfl
      rw [hsing]
      exact hchKB
    · rw [hsplit]
      have hcond : ¬ hashB c.hsize (Ent.key ⟨c.writer, key.map (· % 256),
          data.map (· % 256), (now + ttl) % 2 ^ 64⟩) = b := by
        show ¬ hashB c.hsize (key.map (· % 256)) = b
        rw [hashB_norm]
        exact fun hq => hbb ((hKB.trans hq).symm)
      have hsing : agePositions c.hsize [⟨c.writer, key.map (· % 256), data.map (· % 256),
          (now + ttl) % 2 ^ 64⟩] b = [] := by
        rw [agePositions_cons, if_neg hcond]
        rfl
      rw [hsing, List.append_nil]
      exact hchOTH b hblt hbal hbb

/-- The append phase: evaluation plus representation preservation.  The new
entry (key and data reduced to bytes, expiry `now + ttl` within 64 bits) is
appended at `writer` as the newest element of its bucket chain. -/
theorem append_step {c : Cache} {olds news : List Ent} (key data : List Nat)
    (ttl now : Nat) (hc : Ctx c olds news)
    (hkb : key.length ≤ 1000) (hdb : data.length ≤ 1000000)
    (hroom : c.writer + (key.length + data.length + 20) ≤ c.oldest) :
    ∃ c2, appendEntry c key data ttl now = some c2 ∧
      Ctx c2 olds (news ++ [⟨c.writer, key.map (· % 256), data.map (· % 256),
        (now + ttl) % 2 ^ 64⟩]) ∧
      c2.size = c.size ∧ c2.hsize = c.hsize ∧
      c2.writer = c.writer + (key.length + data.length + 20) ∧
      c2.oldest = c.oldest ∧ c2.unused = c.unused ∧ c2.options = c.options := by
  have hsz := hc.size_lb
  have hszU := hc.size_ub
  have hs4 := hc.hsize4
  have hss := hc.hsize_le_size
  have hwlo := hc.wlo
  have holo := hc.olo
  have hulo := hc.ulo
  have hslo := hc.slo
  obtain ⟨hkb4, hkbal⟩ := hc.bucket_ok key
  have hkblt : hashB c.hsize key < c.hsize := by omega
  have hkbS : hashB c.hsize key + 4 ≤ c.size := by omega
  have hW12 : c.writer + 12 ≤ c.size := by omega
  have hchL := hc.ch (hashB c.hsize key) hkblt hkbal
  have hheadL := chainAge_head hchL
  have hpw := live_pairwise hc
  by_cases h0 : get4 c.x (hashB c.hsize key) = 0
  · have hev := appendEntry_eval_zero key data ttl now hkbS hW12 h0
    rw [show (0 : Nat) ^^^ hashB c.hsize key
        = get4 c.x (hashB c.hsize key) ^^^ hashB c.hsize key by rw [h0]] at hev
    refine ⟨_, hev, ?_, rfl, rfl, rfl, rfl, rfl, rfl⟩
    refine append_core key data ttl now c.x hc hkb hdb hroom
      (fun f _ => agreeOn_refl _ _ _) (fun b _ _ => rfl) (fun f _ _ => rfl) ?_
    intro hLne
    exfalso
    obtain ⟨eh, hehm, hehp, _⟩ := agePositions_mem (getLastD_mem _ 0 hLne)
    have hbnd := hc.bounds eh hehm
    rw [h0] at hheadL
    omega
  · have hLne : agePositions c.hsize (olds ++ news) (hashB c.hsize key) ≠ [] := by
      intro hq
      apply h0
      rw [hheadL, hq]
      rfl
    obtain ⟨eh, hehm, hehp, _⟩ := agePositions_mem (getLastD_mem _ 0 hLne)
    have hbnd := hc.bounds eh hehm
    have helh := elen_pos eh
    have hpb : get4 c.x (hashB c.hsize key) + 4 ≤ c.size := by
      rw [hheadL, ← hehp]
      omega
    have hev := appendEntry_eval_head key data ttl now hkbS hW12 h0 hpb
    refine ⟨_, hev, ?_, rfl, rfl, rfl, rfl, rfl, rfl⟩
    have hPpos : eh.pos = get4 c.x (hashB c.hsize key) := by rw [hheadL, hehp]
    refine append_core key data ttl now
      (put4 c.x (get4 c.x (hashB c.hsize key))
        (get4 c.x (get4 c.x (hashB c.hsize key)) ^^^ hashB c.hsize key ^^^ c.writer))
      hc hkb hdb hroom ?_ ?_ ?_ ?_
    · intro f hfm
      have hfr := patch_at_entry hpw hehm hfm c.x
        (get4 c.x (get4 c.x (hashB c.hsize key)) ^^^ hashB c.hsize key ^^^ c.writer)
      rw [hPpos] at hfr
      exact hfr
    · intro b hblt hbal
      refine get4_put4_ne _ _ _ _ (Or.inr ?_)
      have := hc.hsize4mod
      rw [← hPpos]
      omega
    · intro f hfm hside
      rcases hside with hside | hside
      · exact absurd hside hLne
      · have hfr := patch_at_entry_link hpw hehm hfm
          (by rw [hPpos, hheadL]; exact fun hq => hside hq.symm) c.x
          (get4 c.x (get4 c.x (hashB c.hsize key)) ^^^ hashB c.hsize key ^^^ c.writer)
        rw [hPpos] at hfr
        exact hfr
    · intro _
      rw [← hheadL, get4_put4_of_lt]
      refine xor_lt_32 (xor_lt_32 (get4_lt _ _) (by omega)) (by omega)

/-! ## Invariant transport, fresh caches, region rotation -/

/-- `Ctx` only mentions the arena, the geometry fields and nothing else, so it
transports across updates of the bookkeeping fields (`cache_motion`, `start`,
`last_ratio`, `ttl`, `options`, `alen`). -/
theorem Ctx_transport {c c' : Cache} {olds news : List Ent}
    (hc : Ctx c olds news) (hx : c'.x = c.x) (hsz : c'.size = c.size)
    (hh : c'.hsize = c.hsize) (hw : c'.writer = c.writer)
    (ho : c'.oldest = c.oldest) (hu : c'.unused = c.unused) :
    Ctx c' olds news := by
  refine ⟨?_, ?_, ?_, ?_, ?_, ?_, ?_, ?_, ?_, ?_, ?_, ?_, ?_, ?_⟩
  · rw [hsz]; exact hc.size_lb
  · rw [hsz]; exact hc.size_ub
  · rw [hh]; exact hc.hsize4
  · rw [hh, hsz]; exact hc.hsize16
  · rw [hh]; exact hc.hsize_pow
  · rw [hh, hw]; exact hc.wlo
  · rw [hw, ho]; exact hc.olo
  · rw [ho, hu]; exact hc.ulo
  · rw [hu, hsz]; exact hc.slo
  · rw [ho, hu, hsz]; exact hc.full
  · rw [ho, hu]; exact hc.tO
  · rw [hh, hw]; exact hc.tN
  · rw [hx]; exact hc.ent
  · rw [hx, hh]; exact hc.ch

theorem get4_zeroArena (p : Nat) : get4 (fun _ => 0) p = 0 := by
  simp [get4, rd]

/-- A freshly (re)initialized cache is well-formed, with no live entries. -/
theorem init_WF (c : Cache) (cachesize : Nat) (options : Option COptions)
    (now : Nat) : Ctx (initOk c cachesize options now) [] [] := by
  set s := if cachesize > 1000000000 then 1000000000
           else if cachesize < 100 then 100 else cachesize with hs
  have hs100 : 100 ≤ s := by rw [hs]; split_ifs <;> omega
  have hsMax : s ≤ 1000000000 := by rw [hs]; split_ifs <;> omega
  obtain ⟨h4, hpow, _, _, _⟩ := hsizeFor_spec s (by omega)
  have h16 := hsizeFor_le_div16 s (by omega) hsMax
  have hle : hsizeFor s ≤ s := le_trans h16 (by omega)
  refine ⟨hs100, hsMax, h4, h16, hpow, le_refl _, hle, le_refl _, le_refl _,
    fun _ => rfl, rfl, rfl, ?_, ?_⟩
  · intro e he
    simp at he
  · intro b _ _
    show get4 (fun _ => 0) b = 0
    exact get4_zeroArena b

/-- Region rotation (`cache.c` lines 304–306): when the old region is empty
and the new region is not, the new region becomes the old region. -/
theorem rotate_step {c : Cache} {olds news : List Ent}
    (hc : Ctx c olds news) (hou : c.oldest = c.unused) (hwh : c.hsize < c.writer) :
    Ctx { c with unused := c.writer, oldest := c.hsize, writer := c.hsize }
      news [] := by
  have htO := hc.tO
  rw [hou] at htO
  have ho : olds = [] := tiles_nil_of_eq htO
  subst ho
  have hwlo := hc.wlo
  have holo := hc.olo
  have hulo := hc.ulo
  have hslo := hc.slo
  refine ⟨hc.size_lb, hc.size_ub, hc.hsize4, hc.hsize16, hc.hsize_pow,
    le_refl _, le_refl _, ?_, ?_, ?_, hc.tN, rfl, ?_, ?_⟩
  · show c.hsize ≤ c.writer
    exact hc.wlo
  · show c.writer ≤ c.size
    omega
  · intro h
    exact absurd h (by show ¬ c.hsize = c.writer; omega)
  · intro e he
    refine hc.ent e ?_
    simp only [List.append_nil] at he
    simpa using he
  · intro b hb hb4
    have := hc.ch b hb hb4
    simpa using this

/-! ## The making-room loop -/

theorem clampSize_idem (n : Nat) : clampSize (clampSize n) = clampSize n := by
  unfold clampSize
  split_ifs <;> omega

theorem clampSize_lb (n : Nat) : 100 ≤ clampSize n := by
  unfold clampSize
  split_ifs <;> omega

theorem clampSize_ub (n : Nat) : clampSize n ≤ 1000000000 := by
  unfold clampSize
  split_ifs <;> omega

theorem initOk_size (c : Cache) (n : Nat) (o : Option COptions) (now : Nat) :
    (initOk c n o now).size = clampSize n := rfl

theorem initOk_hsize (c : Cache) (n : Nat) (o : Option COptions) (now : Nat) :
    (initOk c n o now).hsize = hsizeFor (clampSize n) := rfl

theorem check_for_resize_none (c : Cache) (now : Nat) :
    check_for_resize c now none = ({ c with start := now }, false) := by
  unfold check_for_resize
  cases h : c.options.allow_resize <;> simp

/-- The contract of one `roomLoop` run: it completes, preserving
well-formedness, and reports either room made (`ready`), a resize
(`resized`, consuming at least one oracle decision), or a cache too small for
the entry (`gaveUp`); it never aborts or runs out of the fuel `setAux`
provides. -/
def roomPost (el : Nat) (c : Cache) (orc : List (Option BStep)) : RoomRes → Prop
  | RoomRes.ready c1 => (∃ o1 n1, Ctx c1 o1 n1) ∧
      c1.size = c.size ∧ c1.hsize = c.hsize ∧ c1.options = c.options ∧
      c1.writer + el ≤ c1.oldest
  | RoomRes.resized c1 orc1 => (∃ o1 n1, Ctx c1 o1 n1) ∧ c1.options = c.options ∧
      orc1.length < orc.length ∧ (∀ d, d ∈ orc1 → d ∈ orc) ∧
      ((c1.size = c.size ∧ c1.hsize = c.hsize) ∨
        (∃ b : BStep, some b ∈ orc ∧ c1.size = clampSize b.newsize ∧
          c1.hsize = hsizeFor (clampSize b.newsize) ∧ c1.writer = c1.hsize ∧
          c1.oldest = c1.size ∧ c1.unused = c1.size))
  | RoomRes.gaveUp c1 => (∃ o1 n1, Ctx c1 o1 n1) ∧
      c1.size = c.size ∧ c1.hsize = c.hsize ∧ c1.options = c.options ∧
      c1.size < c1.hsize + el
  | RoomRes.abort => False
  | RoomRes.fuelOut => False

/-- The region rotation of `cache.c` lines 304–306 as a state function. -/
def rotated (c : Cache) : Cache :=
  { c with unused := c.writer, oldest := c.hsize, writer := c.hsize }

theorem roomPost_lift {el : Nat} {c c1 : Cache} {orc orc1 : List (Option BStep)}
    {r : RoomRes} (h : roomPost el c1 orc1 r)
    (hsz : c1.size = c.size) (hh : c1.hsize = c.hsize)
    (hopt : c1.options = c.options)
    (hlen : orc1.length ≤ orc.length) (hmem : ∀ d, d ∈ orc1 → d ∈ orc) :
    roomPost el c orc r := by
  cases r with
  | abort => exact h
  | fuelOut => exact h
  | ready c2 =>
    obtain ⟨hx, h1, h2, h3, h4⟩ := h
    exact ⟨hx, h1.trans hsz, h2.trans hh, h3.trans hopt, h4⟩
  | gaveUp c2 =>
    obtain ⟨hx, h1, h2, h3, h4⟩ := h
    exact ⟨hx, h1.trans hsz, h2.trans hh, h3.trans hopt, h4⟩
  | resized c2 orc2 =>
    obtain ⟨hx, hop, hl2, hm2, hsf⟩ := h
    refine ⟨hx, hop.trans hopt, by omega, fun d hd => hmem d (hm2 d hd), ?_⟩
    rcases hsf with ⟨ha, hb⟩ | ⟨b, hbm, hrest⟩
    · exact Or.inl ⟨ha.trans hsz, hb.trans hh⟩
    · exact Or.inr ⟨b, hmem _ hbm, hrest⟩

/-- The making-room loop always completes (with the fuel `setAux` gives it)
and preserves well-formedness; `roomPost` spells out the three outcomes. -/
theorem roomLoop_spec (el now : Nat) : ∀ (fuel : Nat) (c : Cache)
    (orc : List (Option BStep)) (olds news : List Ent), Ctx c olds news →
    2 * (c.writer - c.hsize) + (c.unused - c.oldest) < fuel →
    roomPost el c orc (roomLoop el now fuel c orc) := by
  intro fuel
  induction fuel with
  | zero =>
    intro c orc olds news _ hm
    omega
  | succ fuel ih =>
    intro c orc olds news hc hm
    by_cases hguard : c.writer + el > c.oldest
    · by_cases hou : c.oldest = c.unused
      · by_cases hws : c.writer ≤ c.hsize
        · have hg : roomLoop el now (fuel+1) c orc = RoomRes.gaveUp c := by
            simp only [roomLoop, if_pos hguard, if_pos hou, if_pos hws]
          rw [hg]
          have hwe : c.writer = c.hsize := le_antisymm hws hc.wlo
          have hus : c.unused = c.size := hc.full hou
          exact ⟨⟨olds, news, hc⟩, rfl, rfl, rfl, by omega⟩
        · have hwh : c.hsize < c.writer := Nat.lt_of_not_le hws
          have hrot : ∀ (cNR : Cache), cNR.x = c.x → cNR.size = c.size →
              cNR.hsize = c.hsize → cNR.writer = c.writer → cNR.oldest = c.oldest →
              cNR.unused = c.unused → cNR.options = c.options →
              ∀ (orc2 : List (Option BStep)), orc2.length ≤ orc.length →
              (∀ d, d ∈ orc2 → d ∈ orc) →
              roomPost el c orc (roomLoop el now fuel (rotated cNR) orc2) := by
            intro cNR hx hsz hh hw ho hu hop orc2 hl hmem
            have hcNR : Ctx cNR olds news := Ctx_transport hc hx hsz hh hw ho hu
            have hrotC := rotate_step hcNR (by rw [ho, hu]; exact hou)
              (by rw [hh, hw]; exact hwh)
            refine roomPost_lift (ih _ orc2 news [] hrotC ?_) ?_ ?_ ?_ hl hmem
            · show 2 * ((rotated cNR).writer - (rotated cNR).hsize)
                + ((rotated cNR).unused - (rotated cNR).oldest) < fuel
              show 2 * (cNR.hsize - cNR.hsize) + (cNR.writer - cNR.hsize) < fuel
              rw [hw, hh]
              omega
            · show cNR.size = c.size
              exact hsz
            · show cNR.hsize = c.hsize
              exact hh
            · show cNR.options = c.options
              exact hop
          rcases orc with _ | ⟨d, orct⟩
          · simp only [roomLoop, if_pos hguard, if_pos hou, if_neg hws,
              List.headD_nil, check_for_resize_none, List.tail_nil]
            exact hrot { c with start := now } rfl rfl rfl rfl rfl rfl rfl []
              (le_refl _) (fun d hd => hd)
          · cases d with
            | none =>
              simp only [roomLoop, if_pos hguard, if_pos hou, if_neg hws,
                List.headD_cons, check_for_resize_none, List.tail_cons]
              exact hrot { c with start := now } rfl rfl rfl rfl rfl rfl rfl orct
                (by simp) (fun d hd => List.mem_cons_of_mem _ hd)
            | some b =>
              cases hall : c.options.allow_resize with
              | false =>
                have hcfr : check_for_resize c now (some b) =
                    ({ c with start := now }, false) := by
                  simp [check_for_resize, hall]
                simp only [roomLoop, if_pos hguard, if_pos hou, if_neg hws,
                  List.headD_cons, hcfr, List.tail_cons]
                exact hrot { c with start := now } rfl rfl rfl rfl rfl rfl rfl orct
                  (by simp) (fun d hd => List.mem_cons_of_mem _ hd)
              | true =>
                cases hres : b.resize with
                | false =>
                  have hcfr : check_for_resize c now (some b) =
                      ({ c with last_ratio := b.ratio, start := now }, false) := by
                    simp [check_for_resize, hall, hres]
                  simp only [roomLoop, if_pos hguard, if_pos hou, if_neg hws,
                    List.headD_cons, hcfr, List.tail_cons]
                  exact hrot { c with last_ratio := b.ratio, start := now }
                    rfl rfl rfl rfl rfl rfl rfl orct
                    (by simp) (fun d hd => List.mem_cons_of_mem _ hd)
                | true =>
                  cases hak : b.allocOk with
                  | true =>
                    have hcfr : check_for_resize c now (some b) =
                        (initOk { c with last_ratio := 0 } (clampSize b.newsize)
                          (some ({ c with last_ratio := (0:ℚ) } : Cache).options) now,
                         true) := by
                      simp [check_for_resize, hall, hres, init, hak, clampSize]
                    simp only [roomLoop, if_pos hguard, if_pos hou, if_neg hws,
                      List.headD_cons, hcfr, List.tail_cons]
                    refine ⟨⟨[], [], init_WF _ _ _ _⟩, rfl, by simp,
                      fun d hd => List.mem_cons_of_mem _ hd,
                      Or.inr ⟨b, List.mem_cons_self _ _, ?_, ?_, rfl, rfl, rfl⟩⟩
                    · exact clampSize_idem b.newsize
                    · show hsizeFor (clampSize (clampSize b.newsize))
                        = hsizeFor (clampSize b.newsize)
                      rw [clampSize_idem]
                  | false =>
                    have hcfr : check_for_resize c now (some b) =
                        ({ c with last_ratio := 0 }, true) := by
                      simp [check_for_resize, hall, hres, init, hak]
                    simp only [roomLoop, if_pos hguard, if_pos hou, if_neg hws,
                      List.headD_cons, hcfr, List.tail_cons]
                    refine ⟨⟨olds, news, Ctx_transport hc rfl rfl rfl rfl rfl rfl⟩,
                      rfl, by simp, fun d hd => List.mem_cons_of_mem _ hd,
                      Or.inl ⟨rfl, rfl⟩⟩
      · have hlt : c.oldest < c.unused := lt_of_le_of_ne hc.ulo hou
        cases holds : olds with
        | nil =>
          exfalso
          have htO := hc.tO
          rw [holds] at htO
          exact hou htO
        | cons e olds1 =>
          subst holds
          obtain ⟨c1, hev, hc1, hsz1, hh1, hw1, hopt1, hdec⟩ := evict_step hc hlt
          have hstep : roomLoop el now (fuel+1) c orc = roomLoop el now fuel c1 orc := by
            simp only [roomLoop, if_pos hguard, if_neg hou, hev]
          rw [hstep]
          refine roomPost_lift (ih c1 orc olds1 news hc1 ?_) hsz1 hh1 hopt1
            (le_refl _) (fun d hd => hd)
          rw [hw1, hh1]
          omega
    · have hg : roomLoop el now (fuel+1) c orc = RoomRes.ready c := by
        simp only [roomLoop, if_neg hguard]
      rw [hg]
      exact ⟨⟨olds, news, hc⟩, rfl, rfl, rfl, by omega⟩

/-! ## Lookup of the newest entry of a bucket -/

/-- One `getLoop` iteration landing on an entry whose key matches the query:
a hit (or an expiry miss) with the inspection counter bumped once. -/
theorem getLoop_hit_step {c : Cache} {key : List Nat} {now2 : Nat}
    (fuel prev n : Nat) {e : Ent} (hrep : entRep c.x e)
    (hpos4 : 4 ≤ e.pos) (hsz : e.pos + elen e ≤ c.size)
    (hek : e.key = key.map (· % 256)) :
    getLoop c key now2 (fuel + 1) prev e.pos n =
      ((if e.exp < now2 then GetRes.miss
        else GetRes.hit e.data
          (if e.exp - now2 > 604800 then 604800 else e.exp - now2)), n + 1) := by
  obtain ⟨h4, h8, h12, hK, hD, hkb1, hdb1⟩ := hrep
  have hkl : e.key.length = key.length := by rw [hek]; exact List.length_map _ _
  unfold elen at hsz
  have hg4 : get4c c (e.pos + 4) = some key.length := by
    rw [get4c_eval (by omega), h4, hkl]
  have hg8 : get4c c (e.pos + 8) = some e.data.length := by
    rw [get4c_eval (by omega), h8]
  have hKr : readBytes c.x (e.pos + 20) key.length = key.map (· % 256) := by
    rw [← hkl, hK, hek]
  have hDr : readBytes c.x (e.pos + 20 + key.length) e.data.length = e.data := by
    rw [← hkl]
    exact hD
  simp only [getLoop, hg4, hg8, if_neg (show ¬ e.pos = 0 by omega),
    if_neg (show ¬ e.pos + 20 + key.length > c.size by omega), hKr, h12,
    if_neg (show ¬ e.data.length > c.size - e.pos - 20 - key.length by omega), hDr]
  by_cases hx : e.exp < now2 <;> simp [hx]

/-- A lookup of the key of the globally newest entry of its bucket inspects
exactly that one entry: a hit with its data if it is unexpired at the lookup
time, a miss otherwise. -/
theorem get_newest {c : Cache} {olds news : List Ent} {e : Ent}
    (hc : Ctx c olds (news ++ [e])) (key : List Nat)
    (hkb : key.length ≤ 1000) (hek : e.key = key.map (· % 256))
    (now2 : Nat) (stamp : Option Nat) :
    cache_t_get_cnt c key now2 stamp =
      ((if e.exp < now2 then GetRes.miss
        else GetRes.hit e.data
          (if e.exp - now2 > 604800 then 604800 else e.exp - now2)), 1) := by
  have hem : e ∈ olds ++ (news ++ [e]) := by simp
  have hbd := hc.bounds e hem
  have hrep := hc.ent e hem
  have hss := hc.hsize_le_size
  have hs4 := hc.hsize4
  obtain ⟨hkb4, hkbal⟩ := hc.bucket_ok key
  have hekb : hashB c.hsize e.key = hashB c.hsize key := by
    rw [hek, hashB_norm]
  have hch := hc.ch (hashB c.hsize key) (by omega) hkbal
  have hL : agePositions c.hsize (olds ++ (news ++ [e])) (hashB c.hsize key)
      = (agePositions c.hsize olds (hashB c.hsize key)
          ++ agePositions c.hsize news (hashB c.hsize key)) ++ [e.pos] := by
    rw [show olds ++ (news ++ [e]) = (olds ++ news) ++ [e] from
          (List.append_assoc olds news [e]).symm,
        agePositions_append, agePositions_append]
    rw [agePositions_cons, if_pos hekb]
    rfl
  have hhead : get4 c.x (hashB c.hsize key) = e.pos := by
    have h1 := chainAge_head hch
    rw [hL, List.getLastD_concat] at h1
    exact h1
  have hheadc : get4c c (hashB c.hsize key) = some e.pos := by
    rw [get4c_eval (by omega), hhead]
  unfold cache_t_get_cnt
  rw [if_neg (by omega : ¬ key.length > 1000)]
  have hhash : hash c key = hashB c.hsize key := rfl
  simp only [hhash, hheadc]
  exact getLoop_hit_step 101 (hashB c.hsize key) 0 ⟨hrep.1, hrep.2.1, hrep.2.2.1,
    hrep.2.2.2.1, hrep.2.2.2.2.1, hrep.2.2.2.2.2.1, hrep.2.2.2.2.2.2⟩
    (by omega) (by omega) hek

/-! ## `cache_t_set`: completion, preservation, and the set-then-get contract -/

/-- Every valid `cache_t_set` call completes with `ok` and preserves
well-formedness, whatever the boundary oracle decides. -/
theorem setAux_WF : ∀ (fuel : Nat) (key data : List Nat) (ttl now : Nat)
    (c : Cache) (orc : List (Option BStep)) (olds news : List Ent),
    Ctx c olds news → orc.length < fuel →
    ∃ c2, setAux key data ttl now fuel c orc = SetRes.ok c2 ∧ WF c2 := by
  intro fuel
  induction fuel with
  | zero =>
    intro key data ttl now c orc olds news _ hl
    omega
  | succ fuel ih =>
    intro key data ttl now c orc olds news hc hl
    by_cases hk : key.length > 1000
    · exact ⟨c, by simp only [setAux, if_pos hk], olds, news, hc⟩
    by_cases hd : data.length > 1000000
    · exact ⟨c, by simp only [setAux, if_neg hk, if_pos hd], olds, news, hc⟩
    have hmeas : 2 * (c.writer - c.hsize) + (c.unused - c.oldest) < 3 * c.size + 3 := by
      have h1 := hc.wlo
      have h2 := hc.olo
      have h3 := hc.ulo
      have h4 := hc.slo
      omega
    have hrl := roomLoop_spec (key.length + data.length + 20) now
      (3 * c.size + 3) c orc olds news hc hmeas
    cases hres : roomLoop (key.length + data.length + 20) now (3 * c.size + 3) c orc with
    | abort =>
      rw [hres] at hrl
      exact hrl.elim
    | fuelOut =>
      rw [hres] at hrl
      exact hrl.elim
    | gaveUp c1 =>
      rw [hres] at hrl
      obtain ⟨⟨o1, n1, hc1⟩, _⟩ := hrl
      exact ⟨c1, by simp only [setAux, if_neg hk, if_neg hd, hres], o1, n1, hc1⟩
    | resized c1 orc1 =>
      rw [hres] at hrl
      obtain ⟨⟨o1, n1, hc1⟩, hopt, hlen, hmem, hsf⟩ := hrl
      obtain ⟨c2, hc2, hwf⟩ := ih key data (if ttl > 604800 then 604800 else ttl)
        now c1 orc1 o1 n1 hc1 (by omega)
      refine ⟨c2, ?_, hwf⟩
      simp only [setAux, if_neg hk, if_neg hd, hres]
      exact hc2
    | ready c1 =>
      rw [hres] at hrl
      obtain ⟨⟨o1, n1, hc1⟩, hsz1, hh1, hopt1, hroom⟩ := hrl
      obtain ⟨c2, hap, hctx2, _⟩ := append_step key data
        (if ttl > 604800 then 604800 else ttl) now hc1 (by omega) (by omega) hroom
      refine ⟨c2, ?_, o1, _, hctx2⟩
      simp only [setAux, if_neg hk, if_neg hd, hres, hap]

/-- The set-then-get contract: a valid `cache_t_set` whose entry fits the
cache (and keeps fitting across any resizes the oracle orders) completes, and
an immediately following lookup of the key inspects exactly one chain entry
and returns the written data bytes while the entry is unexpired, a miss once
it has expired. -/
theorem setAux_hit : ∀ (fuel : Nat) (key data : List Nat) (ttl now : Nat)
    (c : Cache) (orc : List (Option BStep)) (olds news : List Ent),
    Ctx c olds news →
    key.length ≤ 1000 → data.length ≤ 1000000 → ttl ≤ 604800 →
    now + ttl < 2 ^ 64 →
    key.length + data.length + 20 + c.hsize ≤ c.size →
    OracleFits (key.length + data.length + 20) orc →
    orc.length < fuel →
    ∃ c2, setAux key data ttl now fuel c orc = SetRes.ok c2 ∧ WF c2 ∧
      (orc = [] → c2.size = c.size ∧ c2.hsize = c.hsize) ∧
      ∀ now2 stamp, cache_t_get_cnt c2 key now2 stamp =
        ((if now + ttl < now2 then GetRes.miss
          else GetRes.hit (data.map (· % 256))
            (if now + ttl - now2 > 604800 then 604800 else now + ttl - now2)), 1) := by
  intro fuel
  induction fuel with
  | zero =>
    intro key data ttl now c orc olds news _ _ _ _ _ _ _ hl
    omega
  | succ fuel ih =>
    intro key data ttl now c orc olds news hc hkb hdb httl h64 hfit horc hl
    have hk : ¬ key.length > 1000 := by omega
    have hd : ¬ data.length > 1000000 := by omega
    have httl1 : (if ttl > 604800 then 604800 else ttl) = ttl := if_neg (by omega)
    have hmeas : 2 * (c.writer - c.hsize) + (c.unused - c.oldest) < 3 * c.size + 3 := by
      have h1 := hc.wlo
      have h2 := hc.olo
      have h3 := hc.ulo
      have h4 := hc.slo
      omega
    have hrl := roomLoop_spec (key.length + data.length + 20) now
      (3 * c.size + 3) c orc olds news hc hmeas
    cases hres : roomLoop (key.length + data.length + 20) now (3 * c.size + 3) c orc with
    | abort =>
      rw [hres] at hrl
      exact hrl.elim
    | fuelOut =>
      rw [hres] at hrl
      exact hrl.elim
    | gaveUp c1 =>
      rw [hres] at hrl
      obtain ⟨_, hsz1, hh1, _, hsmall⟩ := hrl
      rw [hsz1, hh1] at hsmall
      omega
    | resized c1 orc1 =>
      rw [hres] at hrl
      obtain ⟨⟨o1, n1, hc1⟩, hopt, hlen, hmem, hsf⟩ := hrl
      have hfit1 : key.length + data.length + 20 + c1.hsize ≤ c1.size := by
        rcases hsf with ⟨ha, hb⟩ | ⟨b, hbm, hbsz, hbh, _, _, _⟩
        · rw [ha, hb]
          exact hfit
        · rw [hbsz, hbh]
          exact horc b hbm
      obtain ⟨c2, hc2, hwf, _, hget⟩ := ih key data ttl now c1 orc1 o1 n1 hc1
        hkb hdb httl h64 hfit1 (fun b hb => horc b (hmem _ hb)) (by omega)
      refine ⟨c2, ?_, hwf, ?_, hget⟩
      · simp only [setAux, if_neg hk, if_neg hd, hres, httl1]
        exact hc2
      · intro h0
        rw [h0] at hlen
        exact absurd hlen (by simp)
    | ready c1 =>
      rw [hres] at hrl
      obtain ⟨⟨o1, n1, hc1⟩, hsz1, hh1, hopt1, hroom⟩ := hrl
      obtain ⟨c2, hap, hctx2, hs2, hh2, _, _, _, _⟩ := append_step key data ttl now hc1
        hkb hdb hroom
      refine ⟨c2, ?_, ⟨o1, _, hctx2⟩, fun _ => ⟨hs2.trans hsz1, hh2.trans hh1⟩, ?_⟩
      · simp only [setAux, if_neg hk, if_neg hd, hres, httl1, hap]
      · intro now2 stamp
        have hg := get_newest hctx2 key hkb rfl now2 stamp
        rw [hg]
        have hexp : (now + ttl) % 2 ^ 64 = now + ttl := Nat.mod_eq_of_lt h64
        rw [hexp]

/-- Every reachable cache state is well-formed. -/
theorem Reach_WF {c : Cache} (h : Reach c) : WF c := by
  induction h with
  | fresh cachesize options now c hnew =>
    unfold cache_t_new init at hnew
    rw [if_pos rfl] at hnew
    injection hnew with hnew
    subst hnew
    exact ⟨[], [], init_WF _ _ _ _⟩
  | step c key data ttl now orc c2 hr hkb hdb hset ih =>
    obtain ⟨olds, news, hc⟩ := ih
    obtain ⟨c2q, hok, hwf⟩ := setAux_WF (orc.length + 1) key data ttl now c orc
      olds news hc (by omega)
    unfold cache_t_set at hset
    rw [hok] at hset
    injection hset with hset
    subst hset
    exact hwf

/-! ## The claims -/

/-- C2: after any sequence of valid `set`/`get` operations on a freshly
initialized cache the cursor invariant holds — `hsize ≤ writer ≤ oldest ≤
unused ≤ size`, `oldest = unused → unused = size`, and `hsize` is a power of
two in `[4, size/16]`; every `set` (eviction loop and rotation included)
preserves it. -/
theorem C2_cursor_invariant {c : Cache} (h : Reach c) :
    c.hsize ≤ c.writer ∧ c.writer ≤ c.oldest ∧ c.oldest ≤ c.unused ∧
    c.unused ≤ c.size ∧ (c.oldest = c.unused → c.unused = c.size) ∧
    4 ≤ c.hsize ∧ c.hsize ≤ c.size / 16 ∧ ∃ k, c.hsize = 2 ^ k := by
  obtain ⟨olds, news, hc⟩ := Reach_WF h
  exact ⟨hc.wlo, hc.olo, hc.ulo, hc.slo, hc.full, hc.hsize4, hc.hsize16,
    hc.hsize_pow⟩

/-- C2, witnessed at a concrete reachable state: a fresh 1000-byte cache
after one completed `set`. -/
theorem C2_cursor_invariant_witness :
    (initOk zeroCache 1000 none 0).hsize ≤ (initOk zeroCache 1000 none 0).writer ∧
    (initOk zeroCache 1000 none 0).writer ≤ (initOk zeroCache 1000 none 0).oldest ∧
    (initOk zeroCache 1000 none 0).oldest ≤ (initOk zeroCache 1000 none 0).unused ∧
    (initOk zeroCache 1000 none 0).unused ≤ (initOk zeroCache 1000 none 0).size ∧
    ((initOk zeroCache 1000 none 0).oldest = (initOk zeroCache 1000 none 0).unused →
      (initOk zeroCache 1000 none 0).unused = (initOk zeroCache 1000 none 0).size) ∧
    4 ≤ (initOk zeroCache 1000 none 0).hsize ∧
    (initOk zeroCache 1000 none 0).hsize ≤ (initOk zeroCache 1000 none 0).size / 16 ∧
    ∃ k, (initOk zeroCache 1000 none 0).hsize = 2 ^ k :=
  C2_cursor_invariant (Reach.fresh 1000 none 0 _ rfl)

/-- C9: the caller-supplied current-time override (`stamp`) is accepted and
never read — lookups at the same `tai_now` time agree for every two stamps;
concretely, a lookup whose stamp lies far past the entry expiry still hits,
because expiry is decided against the time source, not the override. -/
theorem C9_stamp_unused :
    (∀ (c : Cache) (key : List Nat) (now : Nat) (s1 s2 : Option Nat),
      cache_t_get_cnt c key now s1 = cache_t_get_cnt c key now s2) ∧
    (∃ c2, cache_t_set (initOk zeroCache 1000 none 0) [1] [9] 5 100 [] =
        SetRes.ok c2 ∧
      cache_t_get c2 [1] 100 (some 1000000) = GetRes.hit [9] 5) := by
  refine ⟨fun _ _ _ _ _ => rfl, ?_⟩
  obtain ⟨c2, hok, _, _, hget⟩ := setAux_hit 1 [1] [9] 5 100
    (initOk zeroCache 1000 none 0) [] [] [] (init_WF _ _ _ _)
    (by decide) (by decide) (by decide) (by norm_num) (by decide)
    (fun b hb => absurd hb (List.not_mem_nil _)) (by decide)
  refine ⟨c2, hok, ?_⟩
  show (cache_t_get_cnt c2 [1] 100 (some 1000000)).1 = GetRes.hit [9] 5
  rw [hget 100 (some 1000000)]
  rfl

/-- C10: when allocation fails, `init` reports failure and the prior cache —
arena, size, and all cursors — is untouched, both for an explicit re-init and
for the resize path at a cycle boundary (which ignores the failed `init` and
continues with the old state). -/
theorem C10_alloc_failure_preserves (c : Cache) (n : Nat) (o : Option COptions)
    (now : Nat) :
    init c n o now false = none ∧
    cache_t_init c n o now false = (c, false) ∧
    (∀ dec : BStep, c.options.allow_resize = true → dec.resize = true →
      dec.allocOk = false →
      (check_for_resize c now (some dec)).1.x = c.x ∧
      (check_for_resize c now (some dec)).1.size = c.size ∧
      (check_for_resize c now (some dec)).1.hsize = c.hsize ∧
      (check_for_resize c now (some dec)).1.writer = c.writer ∧
      (check_for_resize c now (some dec)).1.oldest = c.oldest ∧
      (check_for_resize c now (some dec)).1.unused = c.unused ∧
      (check_for_resize c now (some dec)).1.ttl = c.ttl) := by
  refine ⟨rfl, rfl, ?_⟩
  intro dec hall hres hak
  have hcfr : check_for_resize c now (some dec) =
      ({ c with last_ratio := 0 }, true) := by
    simp [check_for_resize, hall, hres, init, hak]
  rw [hcfr]
  exact ⟨rfl, rfl, rfl, rfl, rfl, rfl, rfl⟩

/-- C1 (amended): for a well-formed cache, a valid `set` whose entry fits —
and keeps fitting through every resize the cycle-boundary oracle may order —
completes, and an immediate `get` of the key returns exactly the written data
bytes with the full remaining TTL. -/
theorem C1_set_then_get {c : Cache} (hwf : WF c) (key data : List Nat)
    (ttl now : Nat) (orc : List (Option BStep))
    (hkb : key.length ≤ 1000) (hdb : data.length ≤ 1000000) (httl : ttl ≤ 604800)
    (h64 : now + ttl < 2 ^ 64)
    (hfit : key.length + data.length + 20 + c.hsize ≤ c.size)
    (horc : OracleFits (key.length + data.length + 20) orc) :
    ∃ c2, cache_t_set c key data ttl now orc = SetRes.ok c2 ∧
      cache_t_get c2 key now none = GetRes.hit (data.map (· % 256)) ttl := by
  obtain ⟨olds, news, hc⟩ := hwf
  obtain ⟨c2, hok, _, _, hget⟩ := setAux_hit (orc.length + 1) key data ttl now
    c orc olds news hc hkb hdb httl h64 hfit horc (by omega)
  refine ⟨c2, hok, ?_⟩
  show (cache_t_get_cnt c2 key now none).1 = GetRes.hit (data.map (· % 256)) ttl
  rw [hget now none]
  show (if now + ttl < now then GetRes.miss
    else GetRes.hit (data.map (· % 256))
      (if now + ttl - now > 604800 then 604800 else now + ttl - now))
    = GetRes.hit (data.map (· % 256)) ttl
  rw [if_neg (by omega), show now + ttl - now = ttl by omega, if_neg (by omega)]

/-- C1, witnessed on a fresh 1000-byte cache: `set [1] ↦ [2]` with ttl 5
at time 0, then `get [1]` at time 0 returns `[2]` with TTL 5. -/
theorem C1_set_then_get_witness :
    ∃ c2, cache_t_set (initOk zeroCache 1000 none 0) [1] [2] 5 0 [] =
        SetRes.ok c2 ∧
      cache_t_get c2 [1] 0 none = GetRes.hit [2] 5 :=
  C1_set_then_get ⟨[], [], init_WF zeroCache 1000 none 0⟩ [1] [2] 5 0 []
    (by decide) (by decide) (by decide) (by norm_num) (by decide)
    (fun b hb => absurd hb (List.not_mem_nil _))

/-- C1, refuted as stated: on a fresh 200-byte cache holding one 101-byte
entry, a valid `set` of a 97-byte entry (within the claim's
`20 + keylen + datalen ≤ size − hsize` bound, which is `192` here) lands on a
cycle boundary; the resize callback orders a shrink to 100 bytes, the retry
cannot fit the entry in the shrunken cache and gives up, and the immediate
`get` of the key misses. -/
theorem C1_counterexample :
    ((setThen (some (initOk zeroCache 200 none 0)) [1]
        (List.replicate 80 3) 3600 50 []).map
      (fun c1 => (c1.size, c1.hsize))) = some (200, 8) ∧
    ((setThen (setThen (some (initOk zeroCache 200 none 0)) [1]
          (List.replicate 80 3) 3600 50 [])
        [2] (List.replicate 76 9) 3600 50 [some ⟨1, true, 100, true⟩]).map
      (fun c2 => cache_t_get c2 [2] 50 none)) = some GetRes.miss := by
  constructor
  · decide
  · decide

/-- C3: a key set twice yields the second value on the next lookup — the new
entry is linked at the chain head, so the walk meets it first; stated for any
completed first `set` and a valid, fitting second `set`, with the lookup made
before the second copy expires. -/
theorem C3_newest_wins {c c1 : Cache} (hwf : WF c)
    (key data1 data2 : List Nat) (ttl1 ttl2 now1 now2 : Nat)
    (orc1 orc2 : List (Option BStep)) (hne : data1 ≠ data2)
    (hset1 : cache_t_set c key data1 ttl1 now1 orc1 = SetRes.ok c1)
    (hkb : key.length ≤ 1000) (hdb2 : data2.length ≤ 1000000)
    (httl2 : ttl2 ≤ 604800) (h64 : now2 + ttl2 < 2 ^ 64)
    (hfit2 : key.length + data2.length + 20 + c1.hsize ≤ c1.size)
    (horc2 : OracleFits (key.length + data2.length + 20) orc2) :
    ∃ c2, cache_t_set c1 key data2 ttl2 now2 orc2 = SetRes.ok c2 ∧
      ∀ now3 stamp, now3 ≤ now2 + ttl2 →
        cache_t_get c2 key now3 stamp =
          GetRes.hit (data2.map (· % 256))
            (if now2 + ttl2 - now3 > 604800 then 604800
             else now2 + ttl2 - now3) := by
  obtain ⟨olds, news, hc⟩ := hwf
  obtain ⟨c1q, hok1, hwf1⟩ := setAux_WF (orc1.length + 1) key data1 ttl1 now1
    c orc1 olds news hc (by omega)
  unfold cache_t_set at hset1
  rw [hok1] at hset1
  injection hset1 with hset1
  subst hset1
  obtain ⟨o1, n1, hc1⟩ := hwf1
  obtain ⟨c2, hok2, _, _, hget⟩ := setAux_hit (orc2.length + 1) key data2 ttl2
    now2 c1q orc2 o1 n1 hc1 hkb hdb2 httl2 h64 hfit2 horc2 (by omega)
  refine ⟨c2, hok2, ?_⟩
  intro now3 stamp hle
  show (cache_t_get_cnt c2 key now3 stamp).1 = _
  rw [hget now3 stamp]
  show (if now2 + ttl2 < now3 then GetRes.miss
    else GetRes.hit (data2.map (· % 256))
      (if now2 + ttl2 - now3 > 604800 then 604800 else now2 + ttl2 - now3)) = _
  rw [if_neg (by omega)]

/-- C3, witnessed on a fresh 1000-byte cache: `[1] ↦ [3]` then `[1] ↦ [4]`;
the lookup returns `[4]`. -/
theorem C3_newest_wins_witness :
    ∃ c1 c2,
      cache_t_set (initOk zeroCache 1000 none 0) [1] [3] 5 0 [] = SetRes.ok c1 ∧
      cache_t_set c1 [1] [4] 6 0 [] = SetRes.ok c2 ∧
      cache_t_get c2 [1] 0 none = GetRes.hit [4] 6 := by
  obtain ⟨c1, hok1, _, hpres, _⟩ := setAux_hit 1 [1] [3] 5 0
    (initOk zeroCache 1000 none 0) [] [] [] (init_WF _ _ _ _)
    (by decide) (by decide) (by decide) (by norm_num) (by decide)
    (fun b hb => absurd hb (List.not_mem_nil _)) (by decide)
  have hok1c : cache_t_set (initOk zeroCache 1000 none 0) [1] [3] 5 0 [] =
      SetRes.ok c1 := hok1
  obtain ⟨hsz, hh⟩ := hpres rfl
  obtain ⟨c2, hok2, hget⟩ := C3_newest_wins ⟨[], [], init_WF zeroCache 1000 none 0⟩
    [1] [3] [4] 5 6 0 0 [] [] (by decide) hok1c (by decide) (by decide)
    (by decide) (by norm_num)
    (by rw [hsz, hh]; decide)
    (fun b hb => absurd hb (List.not_mem_nil _))
  refine ⟨c1, c2, hok1c, hok2, ?_⟩
  have h := hget 0 none (by omega)
  exact h

/-- C4 (amended): after `set(key, data, 0)` at time `t`, a lookup at any time
strictly after `t` misses; at exactly `t` the entry is still returned (the
expiry test `tai_less(expire, now)` is strict — see the counterexample). -/
theorem C4_zero_ttl_miss {c : Cache} (hwf : WF c) (key data : List Nat)
    (now : Nat) (orc : List (Option BStep))
    (hkb : key.length ≤ 1000) (hdb : data.length ≤ 1000000)
    (h64 : now < 2 ^ 64)
    (hfit : key.length + data.length + 20 + c.hsize ≤ c.size)
    (horc : OracleFits (key.length + data.length + 20) orc) :
    ∃ c2, cache_t_set c key data 0 now orc = SetRes.ok c2 ∧
      ∀ now2 stamp, now < now2 →
        cache_t_get c2 key now2 stamp = GetRes.miss := by
  obtain ⟨olds, news, hc⟩ := hwf
  obtain ⟨c2, hok, _, _, hget⟩ := setAux_hit (orc.length + 1) key data 0 now
    c orc olds news hc hkb hdb (by omega) (by omega) hfit horc (by omega)
  refine ⟨c2, hok, ?_⟩
  intro now2 stamp hlt
  show (cache_t_get_cnt c2 key now2 stamp).1 = GetRes.miss
  rw [hget now2 stamp]
  show (if now + 0 < now2 then GetRes.miss
    else GetRes.hit (data.map (· % 256))
      (if now + 0 - now2 > 604800 then 604800 else now + 0 - now2))
    = GetRes.miss
  rw [if_pos (by omega)]

/-- C4, witnessed on a fresh 1000-byte cache: `set [1] ↦ [9]` with ttl 0 at
time 5; the lookup at time 6 misses. -/
theorem C4_zero_ttl_miss_witness :
    ∃ c2, cache_t_set (initOk zeroCache 1000 none 0) [1] [9] 0 5 [] =
        SetRes.ok c2 ∧
      cache_t_get c2 [1] 6 none = GetRes.miss := by
  obtain ⟨c2, hok, hmiss⟩ := C4_zero_ttl_miss
    ⟨[], [], init_WF zeroCache 1000 none 0⟩ [1] [9] 5 []
    (by decide) (by decide) (by norm_num) (by decide)
    (fun b hb => absurd hb (List.not_mem_nil _))
  exact ⟨c2, hok, hmiss 6 none (by omega)⟩

/-- C4, refuted as stated: the same zero-ttl entry is still returned by a
lookup performed at exactly the `set`'s timestamp — the claim promises a miss
at or after that time. -/
theorem C4_counterexample :
    ∃ c2, cache_t_set (initOk zeroCache 1000 none 0) [1] [9] 0 5 [] =
        SetRes.ok c2 ∧
      cache_t_get c2 [1] 5 none = GetRes.hit [9] 0 := by
  obtain ⟨c2, hok, _, _, hget⟩ := setAux_hit 1 [1] [9] 0 5
    (initOk zeroCache 1000 none 0) [] [] [] (init_WF _ _ _ _)
    (by decide) (by decide) (by decide) (by norm_num) (by decide)
    (fun b hb => absurd hb (List.not_mem_nil _)) (by decide)
  refine ⟨c2, hok, ?_⟩
  show (cache_t_get_cnt c2 [1] 5 none).1 = GetRes.hit [9] 0
  rw [hget 5 none]
  rfl

/-- The chain-walk inspection counter: starting from `n ≤ 100`, the walk
returns a count of at most 101 — it increments once per inspected entry and
only recurses while the incremented counter is still at most 100. -/
theorem getLoop_count {c : Cache} {key : List Nat} {now : Nat} :
    ∀ (fuel prev pos n : Nat), n ≤ 100 →
    (getLoop c key now fuel prev pos n).2 ≤ 101 := by
  intro fuel
  induction fuel with
  | zero =>
    intro prev pos n hn
    show ((GetRes.abort, n) : GetRes × Nat).2 ≤ 101
    omega
  | succ fuel ih =>
    intro prev pos n hn
    by_cases h0 : pos = 0
    · simp only [getLoop, if_pos h0]
      omega
    · cases hkl : get4c c (pos + 4) with
      | none =>
        simp only [getLoop, if_neg h0, hkl]
        omega
      | some kl =>
        by_cases hkle : kl = key.length
        · by_cases hbnd : pos + 20 + key.length > c.size
          · simp only [getLoop, if_neg h0, hkl, if_pos hkle, if_pos hbnd]
            omega
          · by_cases hkeq : readBytes c.x (pos + 20) key.length
                = key.map (· % 256)
            · by_cases hexp : get8 c.x (pos + 12) < now
              · simp only [getLoop, if_neg h0, hkl, if_pos hkle, if_neg hbnd,
                  if_pos hkeq, if_pos hexp]
                omega
              · cases hdl : get4c c (pos + 8) with
                | none =>
                  simp only [getLoop, if_neg h0, hkl, if_pos hkle, if_neg hbnd,
                    if_pos hkeq, if_neg hexp, hdl]
                  omega
                | some u =>
                  by_cases hub : u > c.size - pos - 20 - key.length
                  · simp only [getLoop, if_neg h0, hkl, if_pos hkle, if_neg hbnd,
                      if_pos hkeq, if_neg hexp, hdl, if_pos hub]
                    omega
                  · simp only [getLoop, if_neg h0, hkl, if_pos hkle, if_neg hbnd,
                      if_pos hkeq, if_neg hexp, hdl, if_neg hub]
                    omega
            · cases hlv : get4c c pos with
              | none =>
                simp only [getLoop, if_neg h0, hkl, if_pos hkle, if_neg hbnd,
                  if_neg hkeq, hlv]
                omega
              | some lv =>
                by_cases hn100 : n + 1 > 100
                · simp only [getLoop, if_neg h0, hkl, if_pos hkle, if_neg hbnd,
                    if_neg hkeq, hlv, if_pos hn100]
                  omega
                · simp only [getLoop, if_neg h0, hkl, if_pos hkle, if_neg hbnd,
                    if_neg hkeq, hlv, if_neg hn100]
                  exact ih pos (prev ^^^ lv) (n + 1) (by omega)
        · cases hlv : get4c c pos with
          | none =>
            simp only [getLoop, if_neg h0, hkl, if_neg hkle, hlv]
            omega
          | some lv =>
            by_cases hn100 : n + 1 > 100
            · simp only [getLoop, if_neg h0, hkl, if_neg hkle, hlv, if_pos hn100]
              omega
            · simp only [getLoop, if_neg h0, hkl, if_neg hkle, hlv, if_neg hn100]
              exact ih pos (prev ^^^ lv) (n + 1) (by omega)

/-- C5 (amended): the chain walk of a lookup inspects at most 101 entries —
not 100: the guard `++loop > 100` is checked after the increment and only on
the way to the next entry, so the 101st entry is still fully inspected (and
can even produce a hit: see the counterexample). -/
theorem C5_walk_bound (c : Cache) (key : List Nat) (now : Nat)
    (stamp : Option Nat) :
    (cache_t_get_cnt c key now stamp).2 ≤ 101 := by
  unfold cache_t_get_cnt
  by_cases hk : key.length > 1000
  · rw [if_pos hk]
    omega
  · rw [if_neg hk]
    cases h : get4c c (hash c key) with
    | none =>
      simp only [h]
      omega
    | some pos =>
      simp only [h]
      exact getLoop_count 102 (hash c key) pos 0 (by omega)

/-- The offset of flood entry `q`: 101 entries of 22 bytes each, packed from
offset 128 (the end of the 128-byte head-slot region). -/
def posQ (q : Nat) : Nat := 128 + 22 * q

/-- The XOR link of flood entry `q` in a chain threaded
`head → entry 100 → … → entry 0`. -/
def linkQ (q : Nat) : Nat :=
  if q = 0 then 150
  else if q = 100 then 8 ^^^ posQ 99
  else posQ (q + 1) ^^^ posQ (q - 1)

/-- A 4000-byte arena holding 101 entries that all collide on hash bucket 8:
entries 1–100 carry the two-byte key `[0,0]`; entry 0, at the chain tail, is
`[7] ↦ [9]` with expiry `2^40` (byte 14 of its big-endian expire field).
Each entry is `link(4) | keylen(4) | datalen(4) | expire(8) | key | data`. -/
def floodArena : Arena := fun i =>
  if i < 128 then (if i = 8 then 24 else if i = 9 then 9 else 0)
  else if i < 2350 then
    let j := i - 128
    let q := j / 22
    let o := j % 22
    if o < 4 then linkQ q / 256 ^ o % 256
    else if o = 4 then (if q = 0 then 1 else 2)
    else if o < 8 then 0
    else if o = 8 then (if q = 0 then 1 else 0)
    else if o < 12 then 0
    else if o < 20 then (if q = 0 ∧ o = 14 then 1 else 0)
    else if o = 20 then (if q = 0 then 7 else 0)
    else (if q = 0 then 9 else 0)
  else 0

/-- The flooded cache state around `floodArena`. -/
def floodC : Cache :=
  { x := floodArena, alen := 4000, size := 4000, hsize := 128, writer := 2350,
    oldest := 4000, unused := 4000, cache_motion := 0, start := 0,
    last_ratio := 0, ttl := ⟨0, 0, 0, 0⟩, options := ⟨false, 0⟩ }

/-- C5, refuted as stated: on a bucket flooded with 101 colliding entries the
walk inspects 101 entries — more than the claimed 100 — and the 101st
inspection is a hit, not the claimed forced miss. -/
theorem C5_counterexample :
    cache_t_get_cnt floodC [7] 1000 none = (GetRes.hit [9] 604800, 101) := by
  decide

/-- C6 (amended): a successful `init` stores the requested size snapped into
`[100, 10^9]`, but `hsize` is the SMALLEST power of two STRICTLY GREATER than
`size/32` (with floor 4) — the doubling loop `while (hsize <= size>>5)`
overshoots the claimed "largest power of two not exceeding size/32" by one
doubling whenever `size/32 ≥ 4`. -/
theorem C6_size_hsize (c : Cache) (n : Nat) (o : Option COptions) (now : Nat)
    (c1 : Cache) (h : init c n o now true = some c1) :
    c1.size = clampSize n ∧ 4 ≤ c1.hsize ∧ (∃ k, c1.hsize = 2 ^ k) ∧
    c1.size / 32 < c1.hsize ∧
    (∀ m, 4 ≤ m → (∃ j, m = 2 ^ j) → c1.size / 32 < m → c1.hsize ≤ m) := by
  unfold init at h
  rw [if_pos rfl] at h
  injection h with h
  subst h
  obtain ⟨h4, hpow, hgt, _, hmin⟩ := hsizeFor_spec (clampSize n) (clampSize_ub n)
  exact ⟨rfl, h4, hpow, hgt, hmin⟩

/-- C6, witnessed at a request of 777 bytes. -/
theorem C6_size_hsize_witness :
    (initOk zeroCache 777 none 0).size = clampSize 777 ∧
    4 ≤ (initOk zeroCache 777 none 0).hsize ∧
    (∃ k, (initOk zeroCache 777 none 0).hsize = 2 ^ k) ∧
    (initOk zeroCache 777 none 0).size / 32 < (initOk zeroCache 777 none 0).hsize ∧
    (∀ m, 4 ≤ m → (∃ j, m = 2 ^ j) →
      (initOk zeroCache 777 none 0).size / 32 < m →
      (initOk zeroCache 777 none 0).hsize ≤ m) :=
  C6_size_hsize zeroCache 777 none 0 _ rfl

/-- C6, refuted as stated: a 3200-byte cache gets `hsize = 128`, while the
largest power of two not exceeding `3200/32 = 100` is 64; the stored value
even exceeds `size/32`. -/
theorem C6_counterexample :
    (initOk zeroCache 3200 none 0).size = 3200 ∧
    (initOk zeroCache 3200 none 0).hsize = 128 ∧
    specHsize (initOk zeroCache 3200 none 0).size = 64 ∧
    ¬ (initOk zeroCache 3200 none 0).hsize
        ≤ (initOk zeroCache 3200 none 0).size / 32 := by
  decide

/-- C7: `init` allocates the REQUESTED byte count but clamps only the stored
size, so a request below 100 leaves `alen < size`; the `pos > size - 4`
bounds check of `get4`/`set4` then admits offset 96, whose 4-byte window
`[96, 100)` extends past the `alen`-byte allocation — the check does not
confine accesses to the allocated buffer. -/
theorem C7_alloc_below_min (c : Cache) (o : Option COptions) (now : Nat)
    (n : Nat) (hn : n < 100) (c1 : Cache) (h : init c n o now true = some c1) :
    c1.alen = n ∧ c1.size = 100 ∧ c1.alen < c1.size ∧
    get4c c1 96 = some (get4 c1.x 96) ∧ c1.alen < 96 + 4 := by
  unfold init at h
  rw [if_pos rfl] at h
  injection h with h
  subst h
  have hsz : (initOk c n o now).size = 100 := by
    show clampSize n = 100
    unfold clampSize
    rw [if_neg (by omega), if_pos hn]
  refine ⟨rfl, hsz, by rw [hsz]; exact hn, ?_, by show n < 100; omega⟩
  unfold get4c
  rw [hsz]
  norm_num

/-- C7, witnessed at a request of 50 bytes: 50 are allocated, the size field
says 100, and the checked read at offset 96 is allowed. -/
theorem C7_alloc_below_min_witness :
    (initOk zeroCache 50 none 0).alen = 50 ∧
    (initOk zeroCache 50 none 0).size = 100 ∧
    (initOk zeroCache 50 none 0).alen < (initOk zeroCache 50 none 0).size ∧
    get4c (initOk zeroCache 50 none 0) 96
      = some (get4 (initOk zeroCache 50 none 0).x 96) ∧
    (initOk zeroCache 50 none 0).alen < 96 + 4 :=
  C7_alloc_below_min zeroCache none 0 50 (by omega) _ rfl

/-- C8: a successful re-`init` resets the arena, the cursors, `last_ratio`
and `cycle.start` — but it does NOT clear the cycle TTL statistics: the
previous cycle's `{count, total, min, max}` survive into the new arena
(`cycle_stats_clear_ttl` exists and is never called). -/
theorem C8_reinit_keeps_ttl_stats (c : Cache) (n : Nat) (o : Option COptions)
    (now : Nat) (c1 : Cache) (h : init c n o now true = some c1) :
    c1.ttl = c.ttl ∧ c1.x = (fun _ => 0) ∧ c1.writer = c1.hsize ∧
    c1.oldest = c1.size ∧ c1.unused = c1.size ∧ c1.last_ratio = 0 ∧
    c1.start = now := by
  unfold init at h
  rw [if_pos rfl] at h
  injection h with h
  subst h
  exact ⟨rfl, rfl, rfl, rfl, rfl, rfl, rfl⟩

/-- C8, witnessed: re-initializing a cache whose running cycle recorded one
TTL of 42 leaves those statistics in place — nonzero — in the fresh cache. -/
theorem C8_reinit_keeps_ttl_stats_witness :
    (initOk (cycle_stats_add_ttl (initOk zeroCache 1000 none 0) 42)
        500 none 7).ttl
      = (cycle_stats_add_ttl (initOk zeroCache 1000 none 0) 42).ttl ∧
    (cycle_stats_add_ttl (initOk zeroCache 1000 none 0) 42).ttl
      = ⟨1, 42, 42, 42⟩ ∧
    (initOk (cycle_stats_add_ttl (initOk zeroCache 1000 none 0) 42)
        500 none 7).last_ratio = 0 ∧
    (initOk (cycle_stats_add_ttl (initOk zeroCache 1000 none 0) 42)
        500 none 7).start = 7 := by
  have h := C8_reinit_keeps_ttl_stats
    (cycle_stats_add_ttl (initOk zeroCache 1000 none 0) 42) 500 none 7 _ rfl
  exact ⟨h.1, by decide, h.2.2.2.2.2.1, h.2.2.2.2.2.2⟩

end DjbCache
